import Mathlib

/-!
Verification of the Document Structuring & Markdown Rendering Engine of
docs2notion (`src/main.js`).

Strings of the JavaScript source are modelled as `List Char` (`Str`), so that
every operation of the engine (trimming, regex-style rewriting, segmentation)
is an executable structural function on lists.  Each definition below mirrors
one function of `src/main.js`; the theorems at the end of the file settle the
frozen claims about the engine.
-/

set_option maxHeartbeats 1000000

abbrev Str := List Char

/-- Horizontal whitespace, the character class `[ \t]` of the source's
`replace(/[ \t]{2,}/g, ' ')`. -/
def isHw (c : Char) : Bool := c == ' ' || c == '\t'

/-- The ASCII whitespace characters removed by JavaScript's `String.trim`
(space, tab, line feed, carriage return, vertical tab, form feed). -/
def isJsWs (c : Char) : Bool :=
  c == ' ' || c == '\t' || c == '\n' || c == '\r' || c == '\x0b' || c == '\x0c'

/-- JavaScript `String.prototype.trim`: drop leading and trailing whitespace. -/
def jsTrim (l : Str) : Str :=
  ((l.dropWhile isJsWs).reverse.dropWhile isJsWs).reverse

/-- JavaScript truthiness fallback `x || d` for an optional string `x`:
a missing or empty string falls back to the default. -/
def jsOr (x : Option Str) (d : Str) : Str :=
  match x with
  | some s => if s = [] then d else s
  | none => d

/-- JavaScript truthiness of an optional string: present and non-empty. -/
def truthy (x : Option Str) : Bool :=
  match x with
  | some s => decide (s ≠ [])
  | none => false

/-- JavaScript `String.prototype.replace(pat, repl)` with a plain-string
pattern: replace the first occurrence of `pat`, if any. -/
def replaceFirst (pat repl : Str) : Str → Str
  | [] => if pat.isPrefixOf ([] : Str) then repl else []
  | c :: cs =>
    if pat.isPrefixOf (c :: cs) then repl ++ (c :: cs).drop pat.length
    else c :: replaceFirst pat repl cs

/-- Decimal rendering of a natural number, for the `Tab ${i+1}` labels. -/
def natToStr (n : Nat) : Str := (Nat.repr n).data

/-! ### Data model

The Google Docs JSON tree, restricted to the fields `src/main.js` reads.
Optional JSON fields become `Option`; absent arrays that the code only
iterates are collapsed to `[]` when behaviour is identical. -/

/-- The run style read by `applyTextFormatting`: `textStyle.link` is modelled
by the link's `url` (`none` covers both a missing `link` object and a missing
`url`, which the code treats alike through truthiness). -/
structure TextStyle where
  bold : Bool := false
  italic : Bool := false
  underline : Bool := false
  strikethrough : Bool := false
  link : Option Str := none
deriving DecidableEq, Repr

/-- One element of `paragraph.elements`: a text run (with optional
`textStyle`) or anything else, which the extraction loops skip. -/
inductive ParaElem where
  | textRun (content : Str) (textStyle : Option TextStyle)
  | other
deriving DecidableEq, Repr

/-- The `paragraph.bullet` object read by `getBulletInfo`: `listType` models
`bullet.listProperties?.type`, and `nestingLevel` models
`bullet.nestingLevel || 0`. -/
structure Bullet where
  listType : Option Str := none
  nestingLevel : Nat := 0
deriving DecidableEq, Repr

/-- A paragraph: `namedStyleType` models
`paragraph.paragraphStyle?.namedStyleType`. -/
structure Paragraph where
  elements : List ParaElem := []
  bullet : Option Bullet := none
  namedStyleType : Option Str := none
deriving DecidableEq, Repr

/-- One element of a table cell's `content`; the table renderer only looks at
`element.paragraph`, so anything else is `none`. -/
abbrev CellElem := Option Paragraph

/-- A table cell: `some` is the cell's `content` array, `none` a cell whose
`content` field is absent. -/
abbrev TableCell := Option (List CellElem)

/-- A table row: `some` is `row.tableCells`, `none` a row without that
field (which also suppresses the header separator after the first row). -/
abbrev TableRow := Option (List TableCell)

/-- A table: `some` is `table.tableRows`, `none` a table without rows. -/
structure Table where
  tableRows : Option (List TableRow) := none
deriving DecidableEq, Repr

/-- One structural element of a body's `content` array. -/
inductive BodyElement where
  | para (p : Paragraph)
  | table (t : Table)
  | other
deriving DecidableEq, Repr

/-- A `body` object; `content` is its optional array of structural
elements. -/
structure BodyObj where
  content : Option (List BodyElement) := none
deriving DecidableEq, Repr

/-- A Section record as produced by `extractSectionsFromBody` and consumed by
the page renderer. -/
structure Section where
  title : Str
  content : Str
  level : Nat
  parentTab : Str
  sourceDocument : Option Str := none
deriving DecidableEq, Repr

/-! ### Run formatter, list resolver, table renderer, paragraph classifier -/

/-- Model of `applyTextFormatting(text, textStyle)` of `src/main.js`: wraps are applied
in the fixed order bold, italic, underline, strikethrough, and finally the
link wrap when `textStyle.link && textStyle.link.url` is truthy. -/
def applyTextFormatting (text : Str) (st : TextStyle) : Str :=
  let f := text
  let f := if st.bold then "**".data ++ f ++ "**".data else f
  let f := if st.italic then "*".data ++ f ++ "*".data else f
  let f := if st.underline then "<u>".data ++ f ++ "</u>".data else f
  let f := if st.strikethrough then "~~".data ++ f ++ "~~".data else f
  match st.link with
  | some url => if url ≠ [] then "[".data ++ f ++ "](".data ++ url ++ ")".data else f
  | none => f

/-- Model of `getBulletInfo(paragraph)`: a line prefix of two spaces per nesting level
followed by `1. ` for `ORDERED` lists and `- ` otherwise. -/
def getBulletInfo (p : Paragraph) : Str :=
  match p.bullet with
  | none => []
  | some b =>
    let pad := List.replicate (2 * b.nestingLevel) ' '
    if b.listType = some ("ORDERED".data) then pad ++ "1. ".data
    else pad ++ "- ".data

/-- The contribution of one paragraph element inside
`extractFormattedTextFromParagraph`: an empty `content` is falsy in the
source and is skipped before any formatting is applied. -/
def runText (e : ParaElem) : Str :=
  match e with
  | .textRun content st =>
    if content = [] then []
    else
      match st with
      | some style => applyTextFormatting content style
      | none => content
  | .other => []

/-- Model of `extractFormattedTextFromParagraph(paragraph)`: bullet text followed by
the formatted text of each run. -/
def extractFormattedTextFromParagraph (p : Paragraph) : Str :=
  getBulletInfo p ++ (p.elements.map runText).flatten

/-- Model of `extractTextFromParagraph(paragraph)`: the plain (unformatted) run text,
used inside table cells. -/
def extractTextFromParagraph (p : Paragraph) : Str :=
  (p.elements.map (fun e =>
    match e with
    | .textRun content _ => content
    | .other => [])).flatten

/-- The plain text of one table cell: the concatenated text of its
paragraphs. -/
def cellText (cell : TableCell) : Str :=
  match cell with
  | none => []
  | some items =>
    (items.map (fun it =>
      match it with
      | some p => extractTextFromParagraph p
      | none => [])).flatten

/-- One rendered table row `| cell1 | cell2 | ... |` (without the trailing
newline); a row with no `tableCells` renders as a bare `|`. -/
def renderRow (row : TableRow) : Str :=
  '|' :: (match row with
    | none => []
    | some cells => (cells.map (fun c => ' ' :: jsTrim (cellText c) ++ " |".data)).flatten)

/-- The header separator emitted after the first row, one ` --- |` per cell
of that row; skipped when the first row has no `tableCells`. -/
def sepRow (row : TableRow) : Str :=
  match row with
  | none => []
  | some cells => '|' :: (cells.map (fun _ => " --- |".data)).flatten ++ "\n".data

/-- Model of `extractTableFromElement(table)`: pipe-table markup with a separator
after the first row; a table without rows renders as the empty string. -/
def extractTableFromElement (t : Table) : Str :=
  match t.tableRows with
  | none => []
  | some [] => []
  | some (r0 :: rest) =>
    renderRow r0 ++ "\n".data ++ sepRow r0
      ++ (rest.map (fun r => renderRow r ++ "\n".data)).flatten

/-- Model of `getHeadingLevel(paragraph)`: the named-style contract.  `HEADING_k` maps
to `k`, `TITLE` to 1, `SUBTITLE` to 2, everything else (and a missing style)
to 0. -/
def getHeadingLevel (p : Paragraph) : Nat :=
  match p.namedStyleType with
  | none => 0
  | some sty =>
    if sty = "HEADING_1".data then 1
    else if sty = "HEADING_2".data then 2
    else if sty = "HEADING_3".data then 3
    else if sty = "HEADING_4".data then 4
    else if sty = "HEADING_5".data then 5
    else if sty = "HEADING_6".data then 6
    else if sty = "TITLE".data then 1
    else if sty = "SUBTITLE".data then 2
    else 0

/-! ### Section segmenter -/

/-- The loop state of `extractSectionsFromBody`: the emitted sections, the
`currentSection` pointer and the `allContent` accumulator. -/
structure SegState where
  sections : List Section
  current : Option Section
  allContent : Str
deriving DecidableEq, Repr

/-- The push of `currentSection` guarded by
`currentSection && currentSection.content.trim()`, used both at every heading
boundary and at the end of the traversal. -/
def pushSec (cur : Option Section) : List Section :=
  match cur with
  | some c => if jsTrim c.content ≠ [] then [c] else []
  | none => []

/-- The paragraph branch of the segmenter loop, parameterised by the
paragraph's formatted text and heading level (the only two paragraph
attributes the branch reads). -/
def paraStep (parentName : Str) (st : SegState) (ft : Str) (hl : Nat) : SegState :=
  if jsTrim ft = [] then st
  else
    let allContent := st.allContent ++ ft ++ "\n".data
    if hl > 0 then
      { sections := st.sections ++ pushSec st.current,
        current := some ⟨jsTrim ft, [], hl, parentName, none⟩,
        allContent }
    else
      match st.current with
      | some c =>
        { sections := st.sections,
          current := some { c with content := c.content ++ ft ++ "\n".data },
          allContent }
      | none =>
        { sections := st.sections,
          current := some ⟨parentName, ft ++ "\n".data, 1, parentName, none⟩,
          allContent }

/-- One iteration of the `for (const element of body.content)` loop of
`extractSectionsFromBody`. -/
def segStep (parentName : Str) (st : SegState) (el : BodyElement) : SegState :=
  match el with
  | .para p =>
    paraStep parentName st (extractFormattedTextFromParagraph p) (getHeadingLevel p)
  | .table t =>
    let md := extractTableFromElement t
    let allContent := st.allContent ++ md ++ "\n\n".data
    match st.current with
    | some c =>
      { sections := st.sections,
        current := some { c with content := c.content ++ md ++ "\n\n".data },
        allContent }
    | none =>
      { sections := st.sections,
        current := some ⟨parentName, md ++ "\n\n".data, 1, parentName, none⟩,
        allContent }
  | .other => st

/-- The single-section rename at the end of `extractSectionsFromBody`: a lone
section titled like a `Tab `-prefixed parent label is renamed to its source
document's name, or to the label with `Tab ` replaced by `Document `. -/
def renameSingleTab (sections : List Section) (parentName : Str) : List Section :=
  match sections with
  | [s] =>
    if s.title = parentName ∧ "Tab ".data.isPrefixOf parentName then
      let meaningfulName :=
        jsOr s.sourceDocument (replaceFirst ("Tab ".data) ("Document ".data) parentName)
      [{ s with title := meaningfulName }]
    else [s]
  | _ => sections

/-- Model of `extractSectionsFromBody(body, parentName)`: the heading-boundary state
machine, the end-of-traversal push, the all-content fallback and the
single-tab rename. -/
def extractSectionsFromBody (body : Option BodyObj) (parentName : Str) : List Section :=
  match body with
  | none => []
  | some b =>
    match b.content with
    | none => []
    | some elems =>
      let st := elems.foldl (segStep parentName) ⟨[], none, []⟩
      let sections := st.sections ++ pushSec st.current
      let sections :=
        if sections = [] ∧ jsTrim st.allContent ≠ [] then
          [⟨parentName, jsTrim st.allContent, 1, parentName, none⟩]
        else sections
      renameSingleTab sections parentName

/-! ### Tree flattener -/

/-- Model of `tab.tabProperties`. -/
structure TabProps where
  title : Option Str := none
deriving DecidableEq, Repr

/-- A document tab.  `documentTabBody` models the presence of
`tab.documentTab && tab.documentTab.body`; `body` the legacy `tab.body`. -/
inductive Tab where
  | mk (tabProperties : Option TabProps) (documentTabBody : Option BodyObj)
       (body : Option BodyObj) (childTabs : List Tab)
deriving Repr

def Tab.tabProperties : Tab → Option TabProps
  | .mk tp _ _ _ => tp

def Tab.documentTabBody : Tab → Option BodyObj
  | .mk _ dtb _ _ => dtb

def Tab.body : Tab → Option BodyObj
  | .mk _ _ b _ => b

def Tab.childTabs : Tab → List Tab
  | .mk _ _ _ ct => ct

/-- A fetched Google document: title, tabs (an absent `tabs` array behaves
like `[]`), and the single-tab `body`. -/
structure GoogleDoc where
  title : Option Str := none
  tabs : List Tab := []
  body : Option BodyObj := none

/-- The computed tab label `tab.tabProperties?.title || "Tab ${tabIndex+1}"`. -/
def computedTabTitle (tab : Tab) (tabIndex : Nat) : Str :=
  jsOr (tab.tabProperties.bind (fun pr => pr.title)) ("Tab ".data ++ natToStr (tabIndex + 1))

/-- The parent label `extractSectionsFromTab` hands to the segmenter: the
document title replaces a computed label of exactly `Tab 1` when the document
title is truthy. -/
def effectiveTabName (tab : Tab) (tabIndex : Nat) (documentTitle : Option Str) : Str :=
  let tabTitle := computedTabTitle tab tabIndex
  if tabTitle = "Tab 1".data ∧ truthy documentTitle then jsOr documentTitle []
  else tabTitle

/-- The body `extractSectionsFromTab` walks: `tab.documentTab?.body` first,
the legacy `tab.body` otherwise. -/
def tabBody (tab : Tab) : Option BodyObj :=
  match tab.documentTabBody with
  | some b => some b
  | none => tab.body

/-- Model of `extractSectionsFromTab(tab, tabIndex, documentTitle)`. -/
def extractSectionsFromTab (tab : Tab) (tabIndex : Nat) (documentTitle : Option Str) :
    List Section :=
  match tabBody tab with
  | none => []
  | some b => extractSectionsFromBody (some b) (effectiveTabName tab tabIndex documentTitle)

/-- The flattening of `doc.tabs`: each main tab followed by its child tabs,
one level deep, exactly as the collection loop of
`extractSectionsFromGoogleDoc` builds `allTabs`. -/
def flattenTabs (tabs : List Tab) : List Tab :=
  tabs.flatMap (fun t => t :: t.childTabs)

/-- Model of `extractSectionsFromGoogleDoc(doc)`. -/
def extractSectionsFromGoogleDoc (doc : GoogleDoc) : List Section :=
  match doc.tabs with
  | _ :: _ =>
    (((flattenTabs doc.tabs).enum).map
      (fun it => extractSectionsFromTab it.2 it.1 doc.title)).flatten
  | [] =>
    match doc.body with
    | some b => extractSectionsFromBody (some b) (jsOr doc.title "Document".data)
    | none => []

/-! ### Page renderer and its whitespace normalization -/

/-- Model of the rewrite replacing three or more line feeds: every maximal run of three or more line
feeds collapses to exactly two. -/
def collapseNewlines : Str → Str
  | '\n' :: '\n' :: cs => '\n' :: '\n' :: collapseNewlines (cs.dropWhile (· == '\n'))
  | c :: cs => c :: collapseNewlines cs
  | [] => []
termination_by l => l.length
decreasing_by
  · exact Nat.lt_succ_of_le (Nat.le_succ_of_le ((List.dropWhile_suffix _).length_le))
  · simp

/-- Model of the period rewrite `'. $1'`: a single space is inserted between a
period and an immediately following ASCII uppercase letter; scanning resumes
after the matched pair. -/
def spaceAfterPeriods : Str → Str
  | '.' :: c :: cs =>
    if c.isUpper then '.' :: ' ' :: c :: spaceAfterPeriods cs
    else '.' :: spaceAfterPeriods (c :: cs)
  | c :: cs => c :: spaceAfterPeriods cs
  | [] => []
termination_by l => l.length
decreasing_by all_goals simp_arith

/-- Model of the horizontal-whitespace rewrite: every maximal run of two or more spaces or
tabs collapses to a single space (a lone tab survives). -/
def collapseSpaces : Str → Str
  | [] => []
  | [c] => [c]
  | c :: d :: cs =>
    if isHw c && isHw d then ' ' :: collapseSpaces (cs.dropWhile isHw)
    else c :: collapseSpaces (d :: cs)
termination_by l => l.length
decreasing_by
  · have := (List.dropWhile_suffix (l := cs) isHw).length_le
    simp_arith
    omega
  · simp_arith

/-- The content normalization of `createNotionPageFromSection`:
`content.trim()` followed by the three global replaces and the final
`.trim()`. -/
def normalizeSectionContent (s : Str) : Str :=
  jsTrim (collapseSpaces (spaceAfterPeriods (collapseNewlines (jsTrim s))))

/-- The rendered unit returned by `createNotionPageFromSection`. -/
structure NotionPage where
  title : Str
  content : Str
  parentTab : Str
  sourceDocument : Option Str := none
deriving DecidableEq, Repr

/-- Model of `createNotionPageFromSection(section)`: `'#' * min(level || 1, 6)`, a
space, the title, a blank line, the normalized content, and a final newline
appended only when the text does not already end with one. -/
def createNotionPageFromSection (sec : Section) : NotionPage :=
  let headerPrefix := List.replicate (min (if sec.level = 0 then 1 else sec.level) 6) '#'
  let md := headerPrefix ++ " ".data ++ sec.title ++ "\n\n".data
      ++ normalizeSectionContent sec.content
  let md := if md.getLast? = some '\n' then md else md ++ "\n".data
  ⟨sec.title, md, sec.parentTab, sec.sourceDocument⟩

/-! ### Batch (folder) acquisition

`processFolderWithGoogleAPI` lists the folder's documents and processes each
in turn; the network fetch of one document is abstracted as an
`Except Str GoogleDoc` input (the error being the thrown message), which is
exactly what the `try`/`catch` around `processDocumentById` observes. -/

/-- The tail of `processDocumentById(docId, docName)`: every extracted
section is tagged with `docName || doc.title || "Document ${docId}"`. -/
def processDocumentById (docId : Str) (docName : Option Str) (doc : GoogleDoc) :
    List Section :=
  let finalDocName := jsOr docName (jsOr doc.title ("Document ".data ++ docId))
  (extractSectionsFromGoogleDoc doc).map
    (fun s => { s with sourceDocument := some finalDocName })

/-- The synthetic error section pushed when processing one document throws. -/
def errorSection (docName : Str) (msg : Str) : Section :=
  ⟨"Error - ".data ++ docName,
   "Failed to process this document: ".data ++ msg
     ++ "\n\nThis could be due to:\n- Document access restrictions\n- Document format not supported\n- Network connectivity issues\n\nPlease check the document permissions and try again.".data,
   1, "Error".data, some docName⟩

/-- The default section pushed when a document yields no sections at all. -/
def emptyDocSection (docName : Str) : Section :=
  ⟨docName,
   "This document appears to be empty or contains no recognizable content.".data,
   1, "Document".data, some docName⟩

/-- The entries one member document contributes to `allSections` in the
batch loop of `processFolderWithGoogleAPI`. -/
def perDocSections (docId docName : Str) (fetched : Except Str GoogleDoc) :
    List Section :=
  match fetched with
  | .ok doc =>
    let docSections := processDocumentById docId (some docName) doc
    match docSections with
    | [] => [emptyDocSection docName]
    | _ => docSections
  | .error msg => [errorSection docName msg]

/-- A member document of the batch: its id, its listed name, and the outcome
of fetching it. -/
structure BatchDoc where
  id : Str
  name : Str
  fetched : Except Str GoogleDoc

/-- Model of `processFolderWithGoogleAPI` after the folder listing: the per-document
loop with its `try`/`catch` isolation, the empty-folder error before it and
the no-content error after it. -/
def processFolderWithGoogleAPI (docs : List BatchDoc) : Except Str (List Section) :=
  match docs with
  | [] => .error "No Google Docs found in the specified folder".data
  | _ =>
    let allSections :=
      docs.foldl (fun acc d => acc ++ perDocSections d.id d.name d.fetched) []
    match allSections with
    | [] => .error "No content sections found in any of the documents".data
    | _ => .ok allSections

/-! ### Concrete fixtures -/

/-- A one-run paragraph with the given text and optional named style. -/
def paraOf (text : String) (sty : Option String) : Paragraph :=
  ⟨[.textRun text.data none], none, sty.map (fun s => s.data)⟩

/-- Scenario A of the specification: `["Intro text"], [HEADING_1 "Setup"],
["Step one"], [HEADING_2 "Details"], ["More info"]`. -/
def bodyA : List BodyElement :=
  [.para (paraOf "Intro text" none),
   .para (paraOf "Setup" (some "HEADING_1")),
   .para (paraOf "Step one" none),
   .para (paraOf "Details" (some "HEADING_2")),
   .para (paraOf "More info" none)]

/-! ### C1 -/

/-- C1, counterexample: on Scenario A the Section Segmenter yields three
Sections, not exactly two — the leading body text becomes a third, default
Section in addition to the two heading Sections. -/
theorem C1_counterexample :
    (extractSectionsFromBody (some ⟨some bodyA⟩) "Doc".data).length = 3 ∧
    ¬ (extractSectionsFromBody (some ⟨some bodyA⟩) "Doc".data).length = 2 := by
  decide

/-- C1, amended: Scenario A yields exactly three Sections, in order: the
default Section titled after the parent label with content `"Intro text\n"`,
then `{title:"Setup", level:1, content:"Step one\n"}`, then
`{title:"Details", level:2, content:"More info\n"}`. -/
theorem C1_amended :
    extractSectionsFromBody (some ⟨some bodyA⟩) "Doc".data =
      [⟨"Doc".data, "Intro text\n".data, 1, "Doc".data, none⟩,
       ⟨"Setup".data, "Step one\n".data, 1, "Doc".data, none⟩,
       ⟨"Details".data, "More info\n".data, 2, "Doc".data, none⟩] := by
  decide

/-! ### Shared lemmas about `jsTrim` -/

theorem head_dropWhile_not (p : Char → Bool) (l : Str) :
    ∀ c, (l.dropWhile p).head? = some c → p c = false := by
  induction l with
  | nil => intro c h; simp [List.dropWhile] at h
  | cons a t ih =>
    intro c h
    by_cases hp : p a
    · rw [List.dropWhile_cons_of_pos hp] at h
      exact ih c h
    · rw [List.dropWhile_cons_of_neg hp] at h
      simp at h
      subst h
      simpa using hp

theorem dropWhile_eq_self (p : Char → Bool) (l : Str)
    (h : ∀ c, l.head? = some c → p c = false) : l.dropWhile p = l := by
  cases l with
  | nil => rfl
  | cons a t =>
    have := h a (by rfl)
    simp [List.dropWhile, this]

theorem jsTrim_prefix_dropWhile (l : Str) : ∃ t, l.dropWhile isJsWs = jsTrim l ++ t := by
  obtain ⟨u, hu⟩ := List.dropWhile_suffix (l := (l.dropWhile isJsWs).reverse) isJsWs
  refine ⟨u.reverse, ?_⟩
  unfold jsTrim
  calc l.dropWhile isJsWs
      = (l.dropWhile isJsWs).reverse.reverse := (List.reverse_reverse _).symm
    _ = (u ++ (l.dropWhile isJsWs).reverse.dropWhile isJsWs).reverse := by rw [hu]
    _ = ((l.dropWhile isJsWs).reverse.dropWhile isJsWs).reverse ++ u.reverse := by
        rw [List.reverse_append]

theorem jsTrim_head (l : Str) : ∀ c, (jsTrim l).head? = some c → isJsWs c = false := by
  intro c h
  obtain ⟨t, ht⟩ := jsTrim_prefix_dropWhile l
  apply head_dropWhile_not isJsWs l
  rw [ht]
  cases hx : jsTrim l with
  | nil => rw [hx] at h; simp at h
  | cons a s =>
    rw [hx] at h
    simp at h
    subst h
    rfl

theorem jsTrim_last (l : Str) : ∀ c, (jsTrim l).getLast? = some c → isJsWs c = false := by
  intro c h
  unfold jsTrim at h
  rw [List.getLast?_reverse] at h
  exact head_dropWhile_not isJsWs _ c h

theorem jsTrim_eq_self (l : Str)
    (h1 : ∀ c, l.head? = some c → isJsWs c = false)
    (h2 : ∀ c, l.getLast? = some c → isJsWs c = false) : jsTrim l = l := by
  unfold jsTrim
  rw [dropWhile_eq_self isJsWs l h1]
  rw [dropWhile_eq_self isJsWs l.reverse (by intro c hc; rw [List.head?_reverse] at hc; exact h2 c hc)]
  exact l.reverse_reverse

theorem jsTrim_idem (l : Str) : jsTrim (jsTrim l) = jsTrim l :=
  jsTrim_eq_self _ (jsTrim_head l) (jsTrim_last l)

theorem jsTrim_eq_nil_iff (l : Str) : jsTrim l = [] ↔ ∀ c ∈ l, isJsWs c = true := by
  unfold jsTrim
  rw [List.reverse_eq_nil_iff, List.dropWhile_eq_nil_iff]
  constructor
  · intro h c hc
    by_cases hmem : c ∈ l.dropWhile isJsWs
    · exact h c (by simpa using hmem)
    · have hsplit := List.takeWhile_append_dropWhile isJsWs l
      rw [← hsplit] at hc
      rcases List.mem_append.mp hc with h1 | h2
      · exact List.mem_takeWhile_imp h1
      · exact absurd h2 hmem
  · intro h c hc
    rw [List.mem_reverse] at hc
    exact h c ((List.dropWhile_suffix isJsWs).subset hc)

theorem jsTrim_ne_nil_of_mem {l : Str} {c : Char} (hc : c ∈ l) (hw : isJsWs c = false) :
    jsTrim l ≠ [] := by
  intro h
  rw [jsTrim_eq_nil_iff] at h
  rw [h c hc] at hw
  exact Bool.noConfusion hw

theorem exists_not_ws_of_jsTrim_ne_nil {l : Str} (h : jsTrim l ≠ []) :
    ∃ c ∈ l, isJsWs c = false := by
  by_contra hall
  push_neg at hall
  apply h
  rw [jsTrim_eq_nil_iff]
  intro c hc
  have := hall c hc
  revert this
  cases isJsWs c <;> simp

theorem jsTrim_append_left {a : Str} (b : Str) (h : jsTrim a ≠ []) : jsTrim (a ++ b) ≠ [] := by
  obtain ⟨c, hc, hw⟩ := exists_not_ws_of_jsTrim_ne_nil h
  exact jsTrim_ne_nil_of_mem (List.mem_append_left b hc) hw

theorem jsTrim_append_right (a : Str) {b : Str} (h : jsTrim b ≠ []) : jsTrim (a ++ b) ≠ [] := by
  obtain ⟨c, hc, hw⟩ := exists_not_ws_of_jsTrim_ne_nil h
  exact jsTrim_ne_nil_of_mem (List.mem_append_right a hc) hw

/-! ### C5 -/

/-- C5: the Run Formatter applies its wraps in a fixed order with the link
wrap outermost whenever a link URL is present and non-empty — the output is
the non-link rendering wrapped in `[...](url)` — and in particular
`applyTextFormatting("hi", {bold, link https://x})` yields
`"[**hi**](https://x)"`. -/
theorem C5_theorem :
    (∀ (text : Str) (st : TextStyle) (url : Str), st.link = some url → url ≠ [] →
      applyTextFormatting text st =
        "[".data ++ applyTextFormatting text { st with link := none }
          ++ "](".data ++ url ++ ")".data) ∧
    applyTextFormatting "hi".data ⟨true, false, false, false, some "https://x".data⟩ =
      "[**hi**](https://x)".data := by
  constructor
  · intro text st url hlink hurl
    simp [applyTextFormatting, hlink, hurl]
  · decide

/-- C5, witness: the order statement applied at a concrete italic link run. -/
theorem C5_witness :
    applyTextFormatting "hey".data ⟨false, true, false, false, some "u".data⟩ =
      "[*hey*](u)".data :=
  (C5_theorem.1 "hey".data ⟨false, true, false, false, some "u".data⟩ "u".data rfl
    (by decide)).trans (by decide)

/-! ### C10 -/

theorem segStep_para_congr (pn : Str) (st : SegState) (p q : Paragraph)
    (hf : extractFormattedTextFromParagraph p = extractFormattedTextFromParagraph q)
    (hl : getHeadingLevel p = getHeadingLevel q) :
    segStep pn st (.para p) = segStep pn st (.para q) := by
  simp only [segStep, hf, hl]

theorem extract_para_subst (p q : Paragraph)
    (hf : extractFormattedTextFromParagraph p = extractFormattedTextFromParagraph q)
    (hl : getHeadingLevel p = getHeadingLevel q)
    (pre post : List BodyElement) (pn : Str) :
    extractSectionsFromBody (some ⟨some (pre ++ .para p :: post)⟩) pn =
    extractSectionsFromBody (some ⟨some (pre ++ .para q :: post)⟩) pn := by
  simp only [extractSectionsFromBody, List.foldl_append, List.foldl_cons,
    segStep_para_congr pn _ p q hf hl]

/-- C10: the Paragraph Classifier maps `TITLE` to heading level 1 and
`SUBTITLE` to 2; a missing named style and any unrecognized named style map
to 0; and swapping a paragraph's style between `TITLE` and `HEADING_1` (or
`SUBTITLE` and `HEADING_2`) anywhere in a body leaves the Segmenter's output
unchanged, so a title or subtitle paragraph starts a Section exactly like the
corresponding heading. -/
theorem C10_theorem :
    (∀ els b, getHeadingLevel ⟨els, b, some "TITLE".data⟩ = 1) ∧
    (∀ els b, getHeadingLevel ⟨els, b, some "SUBTITLE".data⟩ = 2) ∧
    (∀ els b, getHeadingLevel ⟨els, b, none⟩ = 0) ∧
    (∀ els b sty,
      sty ∉ ["HEADING_1".data, "HEADING_2".data, "HEADING_3".data, "HEADING_4".data,
             "HEADING_5".data, "HEADING_6".data, "TITLE".data, "SUBTITLE".data] →
      getHeadingLevel ⟨els, b, some sty⟩ = 0) ∧
    (∀ els b pre post pn,
      extractSectionsFromBody
          (some ⟨some (pre ++ .para ⟨els, b, some "TITLE".data⟩ :: post)⟩) pn =
        extractSectionsFromBody
          (some ⟨some (pre ++ .para ⟨els, b, some "HEADING_1".data⟩ :: post)⟩) pn) ∧
    (∀ els b pre post pn,
      extractSectionsFromBody
          (some ⟨some (pre ++ .para ⟨els, b, some "SUBTITLE".data⟩ :: post)⟩) pn =
        extractSectionsFromBody
          (some ⟨some (pre ++ .para ⟨els, b, some "HEADING_2".data⟩ :: post)⟩) pn) := by
  refine ⟨fun els b => rfl, fun els b => rfl, fun els b => rfl, ?_, ?_, ?_⟩
  · intro els b sty hmem
    simp only [List.mem_cons, not_or] at hmem
    obtain ⟨h1, h2, h3, h4, h5, h6, h7, h8, -⟩ := hmem
    simp [getHeadingLevel, h1, h2, h3, h4, h5, h6, h7, h8]
  · intro els b pre post pn
    exact extract_para_subst ⟨els, b, some "TITLE".data⟩ ⟨els, b, some "HEADING_1".data⟩
      rfl rfl pre post pn
  · intro els b pre post pn
    exact extract_para_subst ⟨els, b, some "SUBTITLE".data⟩ ⟨els, b, some "HEADING_2".data⟩
      rfl rfl pre post pn

/-- C10, witness: the unrecognized-style clause applied at `NORMAL_TEXT`,
and the substitution clause applied on a one-heading body. -/
theorem C10_witness :
    getHeadingLevel ⟨[], none, some "NORMAL_TEXT".data⟩ = 0 ∧
    extractSectionsFromBody (some ⟨some ([] ++ .para ⟨[.textRun "T".data none], none,
        some "TITLE".data⟩ :: [.para (paraOf "x" none)])⟩) "Doc".data =
      extractSectionsFromBody (some ⟨some ([] ++ .para ⟨[.textRun "T".data none], none,
        some "HEADING_1".data⟩ :: [.para (paraOf "x" none)])⟩) "Doc".data :=
  ⟨C10_theorem.2.2.2.1 [] none "NORMAL_TEXT".data (by decide),
   C10_theorem.2.2.2.2.1 [.textRun "T".data none] none [] [.para (paraOf "x" none)] "Doc".data⟩

/-! ### Segmenter fold invariants -/

theorem mem_pushSec {cur : Option Section} {s : Section} (h : s ∈ pushSec cur) :
    jsTrim s.content ≠ [] ∧ cur = some s := by
  cases cur with
  | none => simp [pushSec] at h
  | some c =>
    simp only [pushSec] at h
    split at h
    · next hc =>
      simp at h
      subst h
      exact ⟨hc, rfl⟩
    · simp at h

theorem segStep_sections_inv (pn : Str) (st : SegState) (e : BodyElement)
    (h : ∀ s ∈ st.sections, jsTrim s.content ≠ []) :
    ∀ s ∈ (segStep pn st e).sections, jsTrim s.content ≠ [] := by
  intro s hs
  cases e with
  | para p =>
    simp only [segStep, paraStep] at hs
    split at hs
    · exact h s hs
    · split at hs
      · simp only [List.mem_append] at hs
        rcases hs with hs | hs
        · exact h s hs
        · exact (mem_pushSec hs).1
      · cases hcur : st.current with
        | some c => rw [hcur] at hs; exact h s hs
        | none => rw [hcur] at hs; exact h s hs
  | table t =>
    simp only [segStep] at hs
    cases hcur : st.current with
    | some c => rw [hcur] at hs; exact h s hs
    | none => rw [hcur] at hs; exact h s hs
  | other => exact h s hs

theorem fold_sections_inv (pn : Str) (elems : List BodyElement) (st : SegState)
    (h : ∀ s ∈ st.sections, jsTrim s.content ≠ []) :
    ∀ s ∈ (elems.foldl (segStep pn) st).sections, jsTrim s.content ≠ [] := by
  induction elems generalizing st with
  | nil => exact h
  | cons e rest ih => exact ih _ (segStep_sections_inv pn st e h)

/-- Membership through the single-tab rename: everything except possibly the
title is preserved. -/
theorem renameSingleTab_mem {L : List Section} {pn : Str} {s : Section}
    (h : s ∈ renameSingleTab L pn) :
    ∃ s' ∈ L, s'.content = s.content ∧ s'.parentTab = s.parentTab ∧ s'.level = s.level := by
  cases L with
  | nil => simp [renameSingleTab] at h
  | cons a t =>
    cases t with
    | nil =>
      simp only [renameSingleTab] at h
      split at h
      · simp at h
        exact ⟨a, by simp, by simp [h], by simp [h], by simp [h]⟩
      · simp at h
        exact ⟨a, by simp, by simp [h], by simp [h], by simp [h]⟩
    | cons b t2 => exact ⟨s, h, rfl, rfl, rfl⟩

/-! ### C4 -/

/-- Scenario body for C4: a heading followed by a 1×1 table. -/
def tableA : Table := ⟨some [some [some [some (paraOf "a" none)]]]⟩

def bodyT : List BodyElement := [.para (paraOf "H" (some "HEADING_1")), .table tableA]

/-- C4, counterexample: a Section surfaced by the Segmenter whose content
ends in two newlines, i.e. with a trailing blank line — table content is
appended as `markdown + "\n\n"`, so the claimed "never emitted with leading
or trailing blank lines" invariant fails. -/
theorem C4_counterexample :
    extractSectionsFromBody (some ⟨some bodyT⟩) "Doc".data =
      [⟨"H".data, "| a |\n| --- |\n\n\n".data, 1, "Doc".data, none⟩] ∧
    ("| a |\n| --- |\n\n\n".data).getLast? = some '\n' ∧
    ("| a |\n| --- |\n\n\n".data).dropLast.getLast? = some '\n' := by
  decide

/-- C4, amended: every Section surfaced by the Section Segmenter has
non-empty trimmed content (with no exception needed inside the Segmenter);
the blank-line half of the claimed invariant does not hold, since table
content introduces trailing (and, for empty tables, leading) blank lines. -/
theorem C4_amended (body : Option BodyObj) (pn : Str) (s : Section)
    (h : s ∈ extractSectionsFromBody body pn) : jsTrim s.content ≠ [] := by
  cases body with
  | none => simp [extractSectionsFromBody] at h
  | some b =>
    cases hb : b.content with
    | none => simp [extractSectionsFromBody, hb] at h
    | some elems =>
      simp only [extractSectionsFromBody, hb] at h
      obtain ⟨s', hs', hcon, -, -⟩ := renameSingleTab_mem h
      rw [← hcon]
      clear hcon h
      split at hs'
      · next hcond =>
        simp at hs'
        rw [hs']
        simpa [jsTrim_idem] using hcond.2
      · rcases List.mem_append.mp hs' with hmem | hmem
        · exact fold_sections_inv pn elems ⟨[], none, []⟩ (by simp) s' hmem
        · exact (mem_pushSec hmem).1

/-- C4, witness: the amended invariant applied to the table-content Section
of the counterexample body. -/
theorem C4_witness : jsTrim ("| a |\n| --- |\n\n\n".data) ≠ [] :=
  C4_amended (some ⟨some bodyT⟩) "Doc".data
    ⟨"H".data, "| a |\n| --- |\n\n\n".data, 1, "Doc".data, none⟩ (by decide)

/-! ### C9 -/

theorem segStep_parentTab_inv (pn : Str) (st : SegState) (e : BodyElement)
    (hsec : ∀ s ∈ st.sections, s.parentTab = pn)
    (hcur : ∀ c, st.current = some c → c.parentTab = pn) :
    (∀ s ∈ (segStep pn st e).sections, s.parentTab = pn) ∧
    (∀ c, (segStep pn st e).current = some c → c.parentTab = pn) := by
  cases e with
  | para p =>
    simp only [segStep, paraStep]
    split
    · exact ⟨hsec, hcur⟩
    · split
      · refine ⟨?_, ?_⟩
        · intro s hs
          rcases List.mem_append.mp hs with hs | hs
          · exact hsec s hs
          · obtain ⟨-, hc⟩ := mem_pushSec hs
            exact hcur s hc
        · intro c hc
          simp at hc
          rw [← hc]
      · cases hcd : st.current with
        | some c =>
          refine ⟨hsec, ?_⟩
          intro c' hc'
          simp at hc'
          rw [← hc']
          exact hcur c hcd
        | none =>
          refine ⟨hsec, ?_⟩
          intro c' hc'
          simp at hc'
          rw [← hc']
  | table t =>
    simp only [segStep]
    cases hcd : st.current with
    | some c =>
      refine ⟨hsec, ?_⟩
      intro c' hc'
      simp at hc'
      rw [← hc']
      exact hcur c hcd
    | none =>
      refine ⟨hsec, ?_⟩
      intro c' hc'
      simp at hc'
      rw [← hc']
  | other => exact ⟨hsec, hcur⟩

theorem fold_parentTab_inv (pn : Str) (elems : List BodyElement) (st : SegState)
    (hsec : ∀ s ∈ st.sections, s.parentTab = pn)
    (hcur : ∀ c, st.current = some c → c.parentTab = pn) :
    (∀ s ∈ (elems.foldl (segStep pn) st).sections, s.parentTab = pn) ∧
    (∀ c, (elems.foldl (segStep pn) st).current = some c → c.parentTab = pn) := by
  induction elems generalizing st with
  | nil => exact ⟨hsec, hcur⟩
  | cons e rest ih =>
    obtain ⟨h1, h2⟩ := segStep_parentTab_inv pn st e hsec hcur
    exact ih _ h1 h2

/-- Every Section the Segmenter returns carries the parent label it was
called with. -/
theorem extract_parentTab {body : Option BodyObj} {pn : Str} {s : Section}
    (h : s ∈ extractSectionsFromBody body pn) : s.parentTab = pn := by
  cases body with
  | none => simp [extractSectionsFromBody] at h
  | some b =>
    cases hb : b.content with
    | none => simp [extractSectionsFromBody, hb] at h
    | some elems =>
      simp only [extractSectionsFromBody, hb] at h
      obtain ⟨s', hs', -, hpt, -⟩ := renameSingleTab_mem h
      rw [← hpt]
      clear hpt h
      split at hs'
      · simp at hs'
        rw [hs']
      · obtain ⟨h1, h2⟩ := fold_parentTab_inv pn elems ⟨[], none, []⟩ (by simp) (by simp)
        rcases List.mem_append.mp hs' with hmem | hmem
        · exact h1 s' hmem
        · obtain ⟨-, hc⟩ := mem_pushSec hmem
          exact h2 s' hc

/-- First tab of the C9 document: untitled, with a one-paragraph body. -/
def tabU : Tab := .mk none (some ⟨some [.para (paraOf "x" none)]⟩) none []

/-- Second tab of the C9 document: titled `Other`. -/
def tabT : Tab := .mk (some ⟨some "Other".data⟩) (some ⟨some [.para (paraOf "y" none)]⟩) none []

/-- A two-tab document whose first tab is untitled. -/
def doc2tabs : GoogleDoc := ⟨some "My Doc".data, [tabU, tabT], none⟩

/-- C9, counterexample: in a document with two SubDocuments the untitled
first tab still gets the Document's own title as its parent label (and not
the ordinal placeholder `Tab 1`), so the substitution is not restricted to
the case of a single SubDocument lacking a title. -/
theorem C9_counterexample :
    (flattenTabs doc2tabs.tabs).length = 2 ∧
    (extractSectionsFromGoogleDoc doc2tabs).map (fun s => s.parentTab) =
      ["My Doc".data, "Other".data] ∧
    "My Doc".data ≠ "Tab 1".data := by
  decide

/-- C9, amended: the Tree Flattener substitutes the Document's own title for
the parent label if and only if the SubDocument's computed label is exactly
`Tab 1` — i.e. the SubDocument is untitled and sits at flattened index 0, or
is literally titled `Tab 1` — and the Document's title is non-empty; being
the only SubDocument is not required.  Otherwise an untitled SubDocument at
index `N-1` keeps the ordinal placeholder `Tab N`. -/
theorem C9_amended (tab : Tab) (tabIndex : Nat) (documentTitle : Option Str) (s : Section)
    (h : s ∈ extractSectionsFromTab tab tabIndex documentTitle) :
    s.parentTab =
      (if computedTabTitle tab tabIndex = "Tab 1".data ∧ truthy documentTitle = true
       then jsOr documentTitle []
       else computedTabTitle tab tabIndex) := by
  cases hb : tabBody tab with
  | none => simp [extractSectionsFromTab, hb] at h
  | some b =>
    simp only [extractSectionsFromTab, hb] at h
    exact extract_parentTab h

/-- C9, witness: the amended label rule applied to the titled second tab of
the two-tab document. -/
theorem C9_witness :
    (Section.parentTab ⟨"Other".data, "y\n".data, 1, "Other".data, none⟩) =
      (if computedTabTitle tabT 1 = "Tab 1".data ∧ truthy (some "My Doc".data) = true
       then jsOr (some "My Doc".data) []
       else computedTabTitle tabT 1) :=
  C9_amended tabT 1 (some "My Doc".data) ⟨"Other".data, "y\n".data, 1, "Other".data, none⟩
    (by decide)

/-! ### C2: heading groups -/

/-- A non-heading paragraph with non-blank formatted text. -/
abbrev isBodyPara (p : Paragraph) : Prop :=
  getHeadingLevel p = 0 ∧ jsTrim (extractFormattedTextFromParagraph p) ≠ []

/-- A heading paragraph with non-blank formatted text. -/
abbrev isHeadingPara (p : Paragraph) : Prop :=
  getHeadingLevel p > 0 ∧ jsTrim (extractFormattedTextFromParagraph p) ≠ []

/-- One heading together with the body paragraphs that follow it up to the
next heading. -/
structure HGroup where
  heading : Paragraph
  body : List Paragraph
deriving DecidableEq, Repr

/-- The block elements of one heading group. -/
def groupElems (g : HGroup) : List BodyElement :=
  .para g.heading :: g.body.map .para

/-- A well-formed group: a non-blank heading followed by at least one
non-blank body paragraph. -/
abbrev groupOk (g : HGroup) : Prop :=
  isHeadingPara g.heading ∧ g.body ≠ [] ∧ ∀ p ∈ g.body, isBodyPara p

/-- The content the segmenter accumulates from a run of body paragraphs. -/
def bodyText (ps : List Paragraph) : Str :=
  (ps.map (fun p => extractFormattedTextFromParagraph p ++ "\n".data)).flatten

/-- The Section one heading group turns into. -/
def groupSection (pn : Str) (g : HGroup) : Section :=
  ⟨jsTrim (extractFormattedTextFromParagraph g.heading), bodyText g.body,
   getHeadingLevel g.heading, pn, none⟩

theorem bodyParas_fold (pn : Str) (ps : List Paragraph)
    (hps : ∀ p ∈ ps, isBodyPara p) (st : SegState) (c : Section)
    (hcur : st.current = some c) :
    (ps.map .para).foldl (segStep pn) st =
      ⟨st.sections, some { c with content := c.content ++ bodyText ps },
       st.allContent ++ bodyText ps⟩ := by
  induction ps generalizing st c with
  | nil =>
    obtain ⟨secs, cur, all⟩ := st
    simp at hcur
    subst hcur
    simp [bodyText]
  | cons p rest ih =>
    obtain ⟨hp0, hpne⟩ := hps p (List.mem_cons_self p rest)
    have hstep : segStep pn st (.para p) =
        ⟨st.sections,
         some { c with content := c.content ++ extractFormattedTextFromParagraph p ++ "\n".data },
         st.allContent ++ extractFormattedTextFromParagraph p ++ "\n".data⟩ := by
      simp only [segStep, paraStep, hp0, hcur]
      rw [if_neg hpne]
      simp
    rw [List.map_cons, List.foldl_cons, hstep,
      ih (fun q hq => hps q (List.mem_cons_of_mem p hq)) _ _ rfl]
    simp [bodyText, List.append_assoc]

theorem group_fold (pn : Str) (g : HGroup) (hg : groupOk g) (st : SegState) :
    (groupElems g).foldl (segStep pn) st =
      ⟨st.sections ++ pushSec st.current, some (groupSection pn g),
       st.allContent ++ extractFormattedTextFromParagraph g.heading ++ "\n".data
         ++ bodyText g.body⟩ := by
  obtain ⟨⟨hh1, hh2⟩, hne, hbody⟩ := hg
  have hstep : segStep pn st (.para g.heading) =
      ⟨st.sections ++ pushSec st.current,
       some ⟨jsTrim (extractFormattedTextFromParagraph g.heading), [],
             getHeadingLevel g.heading, pn, none⟩,
       st.allContent ++ extractFormattedTextFromParagraph g.heading ++ "\n".data⟩ := by
    simp only [segStep, paraStep]
    rw [if_neg hh2, if_pos hh1]
  rw [groupElems, List.foldl_cons, hstep, bodyParas_fold pn g.body hbody _ _ rfl]
  simp [groupSection, List.append_assoc]

theorem jsTrim_bodyText_ne_nil {ps : List Paragraph} (hne : ps ≠ [])
    (h : ∀ p ∈ ps, isBodyPara p) : jsTrim (bodyText ps) ≠ [] := by
  cases ps with
  | nil => exact absurd rfl hne
  | cons p rest =>
    have hp := (h p (List.mem_cons_self p rest)).2
    simp only [bodyText, List.map_cons, List.flatten_cons]
    exact jsTrim_append_left _ (jsTrim_append_left _ hp)

theorem groups_fold (pn : Str) (gs : List HGroup) (hgs : ∀ g ∈ gs, groupOk g)
    (st : SegState) :
    (((gs.map groupElems).flatten).foldl (segStep pn) st).sections ++
        pushSec ((((gs.map groupElems).flatten)).foldl (segStep pn) st).current =
      st.sections ++ pushSec st.current ++ gs.map (groupSection pn) := by
  induction gs generalizing st with
  | nil => simp
  | cons g rest ih =>
    have hg := hgs g (List.mem_cons_self g rest)
    simp only [List.map_cons, List.flatten_cons, List.foldl_append]
    rw [group_fold pn g hg st]
    rw [ih (fun g' hg' => hgs g' (List.mem_cons_of_mem g hg'))]
    have hpush : pushSec (some (groupSection pn g)) = [groupSection pn g] := by
      simp only [pushSec, groupSection]
      rw [if_pos (jsTrim_bodyText_ne_nil hg.2.1 hg.2.2)]
    rw [hpush]
    simp [List.append_assoc]

theorem renameSingleTab_eq_self {L : List Section} {pn : Str}
    (hpn : ¬ ("Tab ".data.isPrefixOf pn = true)) : renameSingleTab L pn = L := by
  match L with
  | [] => rfl
  | [s] =>
    simp only [renameSingleTab]
    rw [if_neg]
    intro hc
    exact hpn hc.2
  | a :: b :: t => rfl

/-- Scenario body for the C2 counterexample: a single heading literally
titled `Tab 1` followed by body text, segmented under parent label `Tab 1`. -/
def bodyC2 : List BodyElement :=
  [.para (paraOf "Tab 1" (some "HEADING_1")), .para (paraOf "x" none)]

/-- C2, counterexample: with parent label `Tab 1`, a body with one heading
(text `Tab 1`) interleaved with body text yields one Section whose title is
`Document 1`, not the heading's trimmed text — the single-section rename of
`extractSectionsFromBody` rewrites the title. -/
theorem C2_counterexample :
    extractSectionsFromBody (some ⟨some bodyC2⟩) "Tab 1".data =
      [⟨"Document 1".data, "x\n".data, 1, "Tab 1".data, none⟩] ∧
    "Document 1".data ≠ jsTrim ("Tab 1".data) := by
  decide

/-- C2, amended: for every sequence made of N ≥ 1 heading groups — each a
non-blank heading followed by at least one non-blank body paragraph — and
every parent label that does not start with `Tab ` (which would trigger the
single-section rename), the Segmenter emits exactly the N group Sections in
order: each level is its heading's level, each title its heading's trimmed
formatted text, and the body after the last heading is the content of the
Nth Section. -/
theorem C2_amended (gs : List HGroup) (pn : Str) (hne : gs ≠ [])
    (hgs : ∀ g ∈ gs, groupOk g) (hpn : ¬ ("Tab ".data.isPrefixOf pn = true)) :
    extractSectionsFromBody (some ⟨some ((gs.map groupElems).flatten)⟩) pn =
      gs.map (groupSection pn) := by
  simp only [extractSectionsFromBody]
  rw [groups_fold pn gs hgs ⟨[], none, []⟩]
  have hmap : (pushSec none : List Section) = [] := rfl
  rw [hmap]
  simp only [List.nil_append]
  rw [if_neg]
  · exact renameSingleTab_eq_self hpn
  · intro hc
    exact hne (List.map_eq_nil_iff.mp hc.1)

/-- C2, witness: the amended statement applied to one concrete group. -/
theorem C2_witness :
    extractSectionsFromBody
        (some ⟨some (([⟨paraOf "H" (some "HEADING_1"), [paraOf "x" none]⟩].map
          groupElems).flatten)⟩) "Doc".data =
      [⟨paraOf "H" (some "HEADING_1"), [paraOf "x" none]⟩].map (groupSection "Doc".data) :=
  C2_amended [⟨paraOf "H" (some "HEADING_1"), [paraOf "x" none]⟩] "Doc".data
    (by decide) (by decide) (by decide)

/-! ### C3: the all-content fallback -/

/-- The per-element contribution to the `allContent` accumulator: blank
paragraphs contribute nothing (they are skipped before the accumulation),
every other paragraph contributes its formatted text plus a newline, and a
table contributes its markup plus two newlines. -/
def seenText (elems : List BodyElement) : Str :=
  (elems.map (fun e =>
    match e with
    | .para p =>
      if jsTrim (extractFormattedTextFromParagraph p) = [] then []
      else extractFormattedTextFromParagraph p ++ "\n".data
    | .table t => extractTableFromElement t ++ "\n\n".data
    | .other => [])).flatten

theorem segStep_allContent (pn : Str) (st : SegState) (e : BodyElement) :
    (segStep pn st e).allContent = st.allContent ++ seenText [e] := by
  cases e with
  | para p =>
    simp only [segStep, paraStep, seenText, List.map_cons, List.map_nil,
      List.flatten_cons, List.flatten_nil, List.append_nil]
    by_cases hb : jsTrim (extractFormattedTextFromParagraph p) = []
    · rw [if_pos hb, if_pos hb]
      simp
    · rw [if_neg hb, if_neg hb]
      split
      · simp [List.append_assoc]
      · cases st.current <;> simp [List.append_assoc]
  | table t =>
    simp only [segStep, seenText, List.map_cons, List.map_nil, List.flatten_cons,
      List.flatten_nil, List.append_nil]
    cases st.current <;> simp [List.append_assoc]
  | other =>
    simp [segStep, seenText]

theorem fold_allContent (pn : Str) (elems : List BodyElement) (st : SegState) :
    (elems.foldl (segStep pn) st).allContent = st.allContent ++ seenText elems := by
  induction elems generalizing st with
  | nil => simp [seenText]
  | cons e rest ih =>
    rw [List.foldl_cons, ih, segStep_allContent]
    have h : seenText (e :: rest) = seenText [e] ++ seenText rest := by
      simp [seenText]
    rw [h, List.append_assoc]

/-- The state invariant of a heading-only traversal: nothing pushed yet and
the current section (if any) still has empty content. -/
def blankSt (st : SegState) : Prop :=
  st.sections = [] ∧ (st.current = none ∨ ∃ c, st.current = some c ∧ c.content = [])

theorem segStep_blankSt (pn : Str) (st : SegState) (p : Paragraph)
    (hp : jsTrim (extractFormattedTextFromParagraph p) ≠ [] → getHeadingLevel p > 0)
    (hst : blankSt st) : blankSt (segStep pn st (.para p)) := by
  obtain ⟨hsec, hcur⟩ := hst
  simp only [segStep, paraStep]
  by_cases hb : jsTrim (extractFormattedTextFromParagraph p) = []
  · rw [if_pos hb]
    exact ⟨hsec, hcur⟩
  · rw [if_neg hb, if_pos (hp hb)]
    have hpush : pushSec st.current = [] := by
      rcases hcur with hcur | ⟨c, hc, hcc⟩
      · rw [hcur]; rfl
      · rw [hc]
        simp [pushSec, hcc, jsTrim]
    refine ⟨by rw [hsec, hpush]; rfl, Or.inr ⟨_, rfl, rfl⟩⟩

theorem fold_blankSt (pn : Str) (elems : List BodyElement) :
    ∀ st : SegState,
      (∀ e ∈ elems, ∃ p, e = BodyElement.para p) →
      (∀ p, BodyElement.para p ∈ elems →
        jsTrim (extractFormattedTextFromParagraph p) ≠ [] → getHeadingLevel p > 0) →
      blankSt st → blankSt (elems.foldl (segStep pn) st) := by
  induction elems with
  | nil => exact fun st _ _ hst => hst
  | cons e rest ih =>
    intro st hpara hp hst
    obtain ⟨p, rfl⟩ := hpara e (List.mem_cons_self e rest)
    exact ih _ (fun e' he' => hpara e' (List.mem_cons_of_mem _ he'))
      (fun q hq hqb => hp q (List.mem_cons_of_mem _ hq) hqb)
      (segStep_blankSt pn st p (hp p (List.mem_cons_self _ rest)) hst)

/-- The state invariant established once any non-blank non-heading content
has been absorbed: something was pushed, or the current section has
non-blank content. -/
def goodSt (st : SegState) : Prop :=
  st.sections ≠ [] ∨ ∃ c, st.current = some c ∧ jsTrim c.content ≠ []

theorem segStep_goodSt (pn : Str) (st : SegState) (e : BodyElement)
    (h : goodSt st) : goodSt (segStep pn st e) := by
  cases e with
  | para p =>
    simp only [segStep, paraStep]
    by_cases hb : jsTrim (extractFormattedTextFromParagraph p) = []
    · rw [if_pos hb]; exact h
    · rw [if_neg hb]
      split
      · left
        rcases h with hsec | ⟨c, hc, hcc⟩
        · simp [hsec]
        · rw [hc]
          simp [pushSec, hcc]
      · cases hcd : st.current with
        | some c =>
          right
          exact ⟨_, rfl, jsTrim_append_left _ (jsTrim_append_right c.content hb)⟩
        | none =>
          right
          exact ⟨_, rfl, jsTrim_append_left _ hb⟩
  | table t =>
    simp only [segStep]
    cases hcd : st.current with
    | some c =>
      rcases h with hsec | ⟨c', hc', hcc⟩
      · left; exact hsec
      · right
        rw [hcd] at hc'
        simp at hc'
        subst hc'
        exact ⟨_, rfl, jsTrim_append_left _ (jsTrim_append_left _ hcc)⟩
    | none =>
      rcases h with hsec | ⟨c', hc', hcc⟩
      · left; exact hsec
      · rw [hcd] at hc'
        exact absurd hc' (by simp)
  | other => exact h

theorem segStep_establishes_goodSt (pn : Str) (st : SegState) (p : Paragraph)
    (h0 : getHeadingLevel p = 0)
    (hne : jsTrim (extractFormattedTextFromParagraph p) ≠ []) :
    goodSt (segStep pn st (.para p)) := by
  simp only [segStep, paraStep, h0]
  rw [if_neg hne]
  simp only [gt_iff_lt, Nat.lt_irrefl, if_false]
  cases st.current with
  | some c =>
    right
    exact ⟨_, rfl, jsTrim_append_left _ (jsTrim_append_right c.content hne)⟩
  | none =>
    right
    exact ⟨_, rfl, jsTrim_append_left _ hne⟩

theorem fold_goodSt (pn : Str) (elems : List BodyElement) (st : SegState)
    (h : goodSt st) : goodSt (elems.foldl (segStep pn) st) := by
  induction elems generalizing st with
  | nil => exact h
  | cons e rest ih => exact ih _ (segStep_goodSt pn st e h)

/-- Scenario body for C3: a single heading paragraph and nothing else. -/
def bodyH : List BodyElement := [.para (paraOf "H" (some "HEADING_1"))]

/-- C3, counterexample: a body consisting of one heading and no non-heading
content at all still produces exactly one fallback Section — titled after
the parent label, with the heading's text as content — so "some non-heading
content was seen" is not the fallback's trigger, and the `allContent`
accumulator includes heading text. -/
theorem C3_counterexample :
    extractSectionsFromBody (some ⟨some bodyH⟩) "Doc".data =
      [⟨"Doc".data, "H".data, 1, "Doc".data, none⟩] ∧
    bodyH = [.para (paraOf "H" (some "HEADING_1"))] ∧
    getHeadingLevel (paraOf "H" (some "HEADING_1")) = 1 := by
  decide

/-- C3, amended: (a) for a body of paragraphs in which every non-blank
paragraph is a heading, the result is the single fallback Section titled
after the parent label whose content is all seen text (headings included)
concatenated in traversal order and trimmed — or nothing when no non-blank
text was seen at all; (b) whenever some non-blank non-heading paragraph
occurs in the body, at least one Section is emitted, so "no Sections emitted
but non-heading content seen" never happens.  (The parent label is assumed
not to start with `Tab `, which would trigger the single-section rename.) -/
theorem C3_amended (elems : List BodyElement) (pn : Str)
    (hpn : ¬ ("Tab ".data.isPrefixOf pn = true)) :
    ((∀ e ∈ elems, ∃ p, e = BodyElement.para p) →
     (∀ p, BodyElement.para p ∈ elems →
        jsTrim (extractFormattedTextFromParagraph p) ≠ [] → getHeadingLevel p > 0) →
     extractSectionsFromBody (some ⟨some elems⟩) pn =
       (if jsTrim (seenText elems) = [] then []
        else [⟨pn, jsTrim (seenText elems), 1, pn, none⟩])) ∧
    (∀ p, BodyElement.para p ∈ elems → getHeadingLevel p = 0 →
      jsTrim (extractFormattedTextFromParagraph p) ≠ [] →
      extractSectionsFromBody (some ⟨some elems⟩) pn ≠ []) := by
  constructor
  · intro hpara hp
    simp only [extractSectionsFromBody]
    rw [renameSingleTab_eq_self hpn]
    obtain ⟨hsec, hcur⟩ :=
      fold_blankSt pn elems ⟨[], none, []⟩ hpara hp ⟨rfl, Or.inl rfl⟩
    have hpush : pushSec (elems.foldl (segStep pn) ⟨[], none, []⟩).current = [] := by
      rcases hcur with hc | ⟨c, hc, hcc⟩
      · rw [hc]; rfl
      · rw [hc]
        simp [pushSec, hcc, jsTrim]
    rw [hsec, hpush, fold_allContent]
    simp only [List.nil_append, true_and]
    split
    · rfl
    · next hblank => rw [if_pos (not_not.mp hblank)]
  · intro p hmem h0 hne hnil
    obtain ⟨l1, l2, rfl⟩ := List.append_of_mem hmem
    have hgood : goodSt ((l1 ++ BodyElement.para p :: l2).foldl (segStep pn) ⟨[], none, []⟩) := by
      rw [List.foldl_append, List.foldl_cons]
      exact fold_goodSt pn l2 _
        (segStep_establishes_goodSt pn (l1.foldl (segStep pn) ⟨[], none, []⟩) p h0 hne)
    revert hnil
    simp only [extractSectionsFromBody]
    rw [renameSingleTab_eq_self hpn]
    intro hnil
    have hne2 : (((l1 ++ BodyElement.para p :: l2).foldl (segStep pn) ⟨[], none, []⟩).sections
        ++ pushSec (((l1 ++ BodyElement.para p :: l2).foldl (segStep pn) ⟨[], none, []⟩)).current) ≠ [] := by
      rcases hgood with hsec | ⟨c, hc, hcc⟩
      · intro hx
        exact hsec (List.append_eq_nil.mp hx).1
      · intro hx
        have : pushSec (((l1 ++ BodyElement.para p :: l2).foldl (segStep pn) ⟨[], none, []⟩)).current = [c] := by
          rw [hc]
          simp [pushSec, hcc]
        rw [this] at hx
        exact List.cons_ne_nil c [] (List.append_eq_nil.mp hx).2
    split at hnil
    · next hcond => exact hne2 hcond.1
    · exact hne2 hnil

/-- C3, witness: the amended fallback statement applied to the one-heading
body of the counterexample. -/
theorem C3_witness :
    extractSectionsFromBody (some ⟨some bodyH⟩) "Doc".data =
      (if jsTrim (seenText bodyH) = [] then []
       else [⟨"Doc".data, jsTrim (seenText bodyH), 1, "Doc".data, none⟩]) :=
  (C3_amended bodyH "Doc".data (by decide)).1
    (by
      intro e he
      simp only [bodyH, List.mem_singleton] at he
      exact ⟨_, he⟩)
    (by
      intro p hp hb
      simp only [bodyH, List.mem_singleton, BodyElement.para.injEq] at hp
      subst hp
      decide)

/-! ### C8 -/

theorem perDocSections_ne_nil (docId docName : Str) (r : Except Str GoogleDoc) :
    perDocSections docId docName r ≠ [] := by
  cases r with
  | error msg => simp [perDocSections]
  | ok doc =>
    simp only [perDocSections]
    cases h : processDocumentById docId (some docName) doc with
    | nil => simp
    | cons a t => simp

theorem perDocSections_sourceDocument (docId docName : Str) (r : Except Str GoogleDoc)
    (hname : docName ≠ []) (s : Section) (h : s ∈ perDocSections docId docName r) :
    s.sourceDocument = some docName := by
  cases r with
  | error msg =>
    simp [perDocSections] at h
    rw [h]
    rfl
  | ok doc =>
    simp only [perDocSections] at h
    cases hd : processDocumentById docId (some docName) doc with
    | nil =>
      rw [hd] at h
      simp at h
      rw [h]
      rfl
    | cons a t =>
      rw [hd] at h
      have hmem : s ∈ processDocumentById docId (some docName) doc := by rw [hd]; exact h
      simp only [processDocumentById, List.mem_map] at hmem
      obtain ⟨s', -, rfl⟩ := hmem
      simp [jsOr, hname]

theorem batch_foldl (docs : List BatchDoc) (init : List Section) :
    docs.foldl (fun acc d => acc ++ perDocSections d.id d.name d.fetched) init =
      init ++ (docs.map (fun d => perDocSections d.id d.name d.fetched)).flatten := by
  induction docs generalizing init with
  | nil => simp
  | cons d rest ih => simp [ih, List.append_assoc]

theorem length_le_flatten_length {α : Type} (L : List (List α)) (h : ∀ x ∈ L, x ≠ []) :
    L.length ≤ L.flatten.length := by
  induction L with
  | nil => simp
  | cons x xs ih =>
    have hx := h x (List.mem_cons_self x xs)
    have hxs := ih (fun y hy => h y (List.mem_cons_of_mem x hy))
    have hlen : 1 ≤ x.length := by
      cases x with
      | nil => exact absurd rfl hx
      | cons a t => simp
    simp only [List.length_cons, List.flatten_cons, List.length_append]
    omega

/-- C8: batch acquisition is isolated per member document.  The loop always
succeeds (returns `.ok`), its output is the concatenation of one non-empty
entry list per requested document in listing order, every requested document
(with a non-empty listed name) contributes an entry tagged with its name, a
fetch failure contributes exactly the synthetic error Section whose title is
`Error - ` followed by the document's name, and the output has at least one
entry per requested document. -/
theorem C8_theorem (docs : List BatchDoc) (hne : docs ≠ [])
    (hnames : ∀ d ∈ docs, d.name ≠ []) :
    processFolderWithGoogleAPI docs =
      .ok ((docs.map (fun d => perDocSections d.id d.name d.fetched)).flatten) ∧
    (∀ d ∈ docs,
      ∃ s ∈ (docs.map (fun d => perDocSections d.id d.name d.fetched)).flatten,
        s.sourceDocument = some d.name) ∧
    (∀ d ∈ docs, ∀ msg, d.fetched = .error msg →
      errorSection d.name msg ∈
        (docs.map (fun d => perDocSections d.id d.name d.fetched)).flatten) ∧
    docs.length ≤ ((docs.map (fun d => perDocSections d.id d.name d.fetched)).flatten).length := by
  have hmemflat : ∀ d ∈ docs, ∀ s ∈ perDocSections d.id d.name d.fetched,
      s ∈ (docs.map (fun d => perDocSections d.id d.name d.fetched)).flatten := by
    intro d hd s hs
    rw [List.mem_flatten]
    exact ⟨perDocSections d.id d.name d.fetched, List.mem_map_of_mem _ hd, hs⟩
  refine ⟨?_, ?_, ?_, ?_⟩
  · cases docs with
    | nil => exact absurd rfl hne
    | cons d rest =>
      simp only [processFolderWithGoogleAPI]
      rw [batch_foldl]
      simp only [List.nil_append]
      have hflat : ((d :: rest).map (fun d => perDocSections d.id d.name d.fetched)).flatten ≠ [] := by
        simp only [List.map_cons, List.flatten_cons]
        intro hx
        exact perDocSections_ne_nil d.id d.name d.fetched (List.append_eq_nil.mp hx).1
      cases hx : ((d :: rest).map (fun d => perDocSections d.id d.name d.fetched)).flatten with
      | nil => exact absurd hx hflat
      | cons a t => rfl
  · intro d hd
    have hne2 := perDocSections_ne_nil d.id d.name d.fetched
    cases hx : perDocSections d.id d.name d.fetched with
    | nil => exact absurd hx hne2
    | cons a t =>
      refine ⟨a, hmemflat d hd a (by rw [hx]; exact List.mem_cons_self a t), ?_⟩
      exact perDocSections_sourceDocument d.id d.name d.fetched (hnames d hd) a
        (by rw [hx]; exact List.mem_cons_self a t)
  · intro d hd msg hmsg
    apply hmemflat d hd
    simp [perDocSections, hmsg]
  · calc docs.length
        = (docs.map (fun d => perDocSections d.id d.name d.fetched)).length := by
          rw [List.length_map]
      _ ≤ ((docs.map (fun d => perDocSections d.id d.name d.fetched)).flatten).length := by
          apply length_le_flatten_length
          intro x hx
          rw [List.mem_map] at hx
          obtain ⟨d, -, rfl⟩ := hx
          exact perDocSections_ne_nil d.id d.name d.fetched

/-- First member of the Scenario D batch. -/
def gdoc1 : GoogleDoc := ⟨some "Doc One".data, [], some ⟨some [.para (paraOf "a" none)]⟩⟩

/-- Third member of the Scenario D batch. -/
def gdoc3 : GoogleDoc := ⟨some "Doc Three".data, [], some ⟨some [.para (paraOf "b" none)]⟩⟩

/-- Scenario D: three requested documents, the second of which fails with
`not-found`. -/
def batch3 : List BatchDoc :=
  [⟨"id1".data, "Doc One".data, .ok gdoc1⟩,
   ⟨"id2".data, "Doc Two".data, .error "not-found".data⟩,
   ⟨"id3".data, "Doc Three".data, .ok gdoc3⟩]

/-- C8, witness: Scenario D — the batch returns `.ok` with exactly three
entries, the second being the synthetic error Section for document two. -/
theorem C8_witness :
    processFolderWithGoogleAPI batch3 =
      .ok ((batch3.map (fun d => perDocSections d.id d.name d.fetched)).flatten) ∧
    ((batch3.map (fun d => perDocSections d.id d.name d.fetched)).flatten).length = 3 ∧
    errorSection "Doc Two".data "not-found".data ∈
      (batch3.map (fun d => perDocSections d.id d.name d.fetched)).flatten := by
  have hne : batch3 ≠ [] := by unfold batch3; exact List.cons_ne_nil _ _
  have hnames : ∀ d ∈ batch3, d.name ≠ [] := by
    intro d hd
    simp only [batch3, List.mem_cons, List.not_mem_nil, or_false] at hd
    rcases hd with rfl | rfl | rfl <;> decide
  have h := C8_theorem batch3 hne hnames
  refine ⟨h.1, by decide, ?_⟩
  exact h.2.2.1 ⟨"id2".data, "Doc Two".data, .error "not-found".data⟩
    (by simp [batch3]) "not-found".data rfl

/-! ### C7: idempotence of the whitespace normalization

The three regex rewrites and the trims are characterized through absence of
their redexes: a string with no run of three newlines, no period directly
followed by an uppercase letter, no two adjacent horizontal whitespace
characters and no whitespace at either end is a fixed point of the whole
pipeline, and the pipeline always produces such a string. -/

/-- The pattern `pat` occurs contiguously inside `l`. -/
def occursIn (pat l : Str) : Prop := ∃ u v, l = u ++ pat ++ v

theorem occursIn_cons_iff {pat : Str} {a : Char} {t : Str} :
    occursIn pat (a :: t) ↔ (∃ v, a :: t = pat ++ v) ∨ occursIn pat t := by
  constructor
  · rintro ⟨u, v, huv⟩
    cases u with
    | nil => exact Or.inl ⟨v, by simpa using huv⟩
    | cons b u' =>
      simp only [List.cons_append, List.cons.injEq] at huv
      exact Or.inr ⟨u', v, huv.2⟩
  · rintro (⟨v, hv⟩ | ⟨u, v, huv⟩)
    · exact ⟨[], v, by simpa using hv⟩
    · exact ⟨a :: u, v, by simp [huv]⟩

theorem occursIn_cons_of_tail {pat : Str} {a : Char} {t : Str} (h : occursIn pat t) :
    occursIn pat (a :: t) :=
  occursIn_cons_iff.mpr (Or.inr h)

theorem not_occursIn_tail {pat : Str} {a : Char} {t : Str} (h : ¬ occursIn pat (a :: t)) :
    ¬ occursIn pat t := fun hc => h (occursIn_cons_of_tail hc)

theorem occursIn_length {pat l : Str} (h : occursIn pat l) : pat.length ≤ l.length := by
  obtain ⟨u, v, rfl⟩ := h
  simp only [List.length_append]
  omega

theorem occursIn_append_mid (pat u m v : Str) (h : occursIn pat m) :
    occursIn pat (u ++ m ++ v) := by
  obtain ⟨x, y, rfl⟩ := h
  exact ⟨u ++ x, y ++ v, by simp⟩

theorem occursIn_of_dropWhile {pat : Str} {p : Char → Bool} {l : Str}
    (h : occursIn pat (l.dropWhile p)) : occursIn pat l := by
  have := occursIn_append_mid pat (l.takeWhile p) (l.dropWhile p) [] h
  rw [List.append_nil, List.takeWhile_append_dropWhile] at this
  exact this

theorem jsTrim_decomp (l : Str) : ∃ u v, l = u ++ jsTrim l ++ v := by
  obtain ⟨t, ht⟩ := jsTrim_prefix_dropWhile l
  refine ⟨l.takeWhile isJsWs, t, ?_⟩
  conv_lhs => rw [← List.takeWhile_append_dropWhile isJsWs l]
  rw [ht, List.append_assoc]

theorem occursIn_of_jsTrim {pat l : Str} (h : occursIn pat (jsTrim l)) : occursIn pat l := by
  obtain ⟨u, v, huv⟩ := jsTrim_decomp l
  rw [huv]
  exact occursIn_append_mid pat u _ v h

/-- No run of three consecutive newlines. -/
def NoTri (l : Str) : Prop := ¬ occursIn ['\n', '\n', '\n'] l

/-- No period immediately followed by an ASCII uppercase letter. -/
def NoDotUp (l : Str) : Prop := ∀ c : Char, c.isUpper → ¬ occursIn ['.', c] l

/-- No two adjacent horizontal whitespace characters. -/
def NoHw2 (l : Str) : Prop := ∀ c d : Char, isHw c → isHw d → ¬ occursIn [c, d] l

theorem noTri_tail {a : Char} {t : Str} (h : NoTri (a :: t)) : NoTri t :=
  not_occursIn_tail h

theorem noDotUp_tail {a : Char} {t : Str} (h : NoDotUp (a :: t)) : NoDotUp t :=
  fun c hc => not_occursIn_tail (h c hc)

theorem noHw2_tail {a : Char} {t : Str} (h : NoHw2 (a :: t)) : NoHw2 t :=
  fun c d hc hd => not_occursIn_tail (h c d hc hd)

theorem noTri_cons {a : Char} {t : Str} (ht : NoTri t)
    (ha : ¬ (a = '\n' ∧ ∃ v, t = '\n' :: '\n' :: v)) : NoTri (a :: t) := by
  intro hocc
  rcases occursIn_cons_iff.mp hocc with ⟨v, hv⟩ | hocc'
  · simp only [List.cons_append, List.cons.injEq] at hv
    exact ha ⟨hv.1, v, hv.2⟩
  · exact ht hocc'

theorem noDotUp_cons {a : Char} {t : Str} (ht : NoDotUp t)
    (ha : ∀ u : Char, u.isUpper → a = '.' → ∀ v, t ≠ u :: v) : NoDotUp (a :: t) := by
  intro c hc hocc
  rcases occursIn_cons_iff.mp hocc with ⟨v, hv⟩ | hocc'
  · simp only [List.cons_append, List.cons.injEq] at hv
    exact ha c hc hv.1 v hv.2
  · exact ht c hc hocc'

theorem noHw2_cons {a : Char} {t : Str} (ht : NoHw2 t)
    (ha : isHw a = true → ∀ u v, t = u :: v → isHw u = false) : NoHw2 (a :: t) := by
  intro c d hc hd hocc
  rcases occursIn_cons_iff.mp hocc with ⟨v, hv⟩ | hocc'
  · simp only [List.cons_append, List.cons.injEq] at hv
    obtain ⟨rfl, hv2⟩ := hv
    rw [ha hc d v hv2] at hd
    exact Bool.noConfusion hd
  · exact ht c d hc hd hocc'

theorem noTri_of_jsTrim {l : Str} (h : NoTri l) : NoTri (jsTrim l) :=
  fun hocc => h (occursIn_of_jsTrim hocc)

theorem noDotUp_of_jsTrim {l : Str} (h : NoDotUp l) : NoDotUp (jsTrim l) :=
  fun c hc hocc => h c hc (occursIn_of_jsTrim hocc)

theorem noHw2_of_jsTrim {l : Str} (h : NoHw2 l) : NoHw2 (jsTrim l) :=
  fun c d hc hd hocc => h c d hc hd (occursIn_of_jsTrim hocc)

theorem noPat_small {pat l : Str} (h : l.length < pat.length) : ¬ occursIn pat l :=
  fun hocc => absurd (occursIn_length hocc) (by omega)

theorem collapseNewlines_cons_ne (c : Char) (cs : Str)
    (h : ¬ (c = '\n' ∧ ∃ cs', cs = '\n' :: cs')) :
    collapseNewlines (c :: cs) = c :: collapseNewlines cs := by
  apply collapseNewlines.eq_2
  intro cs' hc hcs
  exact h ⟨hc, cs', hcs⟩

theorem collapseNewlines_head (l : Str) : (collapseNewlines l).head? = l.head? := by
  induction l using collapseNewlines.induct with
  | case1 cs ih => rw [collapseNewlines.eq_1]; rfl
  | case2 c cs hcond ih => rw [collapseNewlines.eq_2 c cs hcond]; rfl
  | case3 => rw [collapseNewlines.eq_3]

theorem collapseNewlines_fix {l : Str} (h : NoTri l) : collapseNewlines l = l := by
  induction l using collapseNewlines.induct with
  | case1 cs ih =>
    have hcs : cs.dropWhile (· == '\n') = cs := by
      cases cs with
      | nil => rfl
      | cons d cs' =>
        have hd : d ≠ '\n' := by
          intro hd
          exact h ⟨[], cs', by simp [hd]⟩
        rw [List.dropWhile_cons_of_neg (by simpa using hd)]
    rw [hcs] at ih
    rw [collapseNewlines.eq_1, hcs, ih (noTri_tail (noTri_tail h))]
  | case2 c cs hcond ih =>
    rw [collapseNewlines_cons_ne c cs (fun hx => hcond hx.2.choose hx.1 hx.2.choose_spec),
      ih (noTri_tail h)]
  | case3 => rw [collapseNewlines.eq_3]

theorem collapseNewlines_noTri (l : Str) : NoTri (collapseNewlines l) := by
  induction l using collapseNewlines.induct with
  | case1 cs ih =>
    rw [collapseNewlines.eq_1]
    have hhead : ∀ v : Str, collapseNewlines (cs.dropWhile (· == '\n')) ≠ '\n' :: v := by
      intro v hv
      have h1 : (collapseNewlines (cs.dropWhile (· == '\n'))).head? = some '\n' := by
        rw [hv]; rfl
      rw [collapseNewlines_head] at h1
      have h2 := head_dropWhile_not (· == '\n') cs '\n' h1
      simp at h2
    have hinner : NoTri ('\n' :: collapseNewlines (cs.dropWhile (· == '\n'))) := by
      apply noTri_cons ih
      rintro ⟨-, v, hv⟩
      exact hhead ('\n' :: v) hv
    apply noTri_cons hinner
    rintro ⟨-, v, hv⟩
    simp only [List.cons.injEq, true_and] at hv
    exact hhead v hv
  | case2 c cs hcond ih =>
    rw [collapseNewlines_cons_ne c cs (fun hx => hcond hx.2.choose hx.1 hx.2.choose_spec)]
    apply noTri_cons ih
    rintro ⟨rfl, v, hv⟩
    have h1 : cs.head? = some '\n' := by rw [← collapseNewlines_head, hv]; rfl
    cases cs with
    | nil => simp at h1
    | cons d cs' =>
      simp at h1
      exact hcond cs' rfl (by rw [h1])
  | case3 => exact noPat_small (by rw [collapseNewlines.eq_3]; simp)

theorem spaceAfterPeriods_cons_ne (c : Char) (cs : Str) (hc : c ≠ '.') :
    spaceAfterPeriods (c :: cs) = c :: spaceAfterPeriods cs := by
  apply spaceAfterPeriods.eq_2
  intro c1 cs1 hcc hcs
  exact hc hcc

theorem spaceAfterPeriods_head (l : Str) : (spaceAfterPeriods l).head? = l.head? := by
  induction l using spaceAfterPeriods.induct with
  | case1 c cs hup ih => rw [spaceAfterPeriods.eq_1, if_pos hup]; rfl
  | case2 c cs hup ih => rw [spaceAfterPeriods.eq_1, if_neg hup]; rfl
  | case3 c cs hcond ih => rw [spaceAfterPeriods.eq_2 c cs hcond]; rfl
  | case4 => rw [spaceAfterPeriods.eq_3]

theorem spaceAfterPeriods_fix {l : Str} (h : NoDotUp l) : spaceAfterPeriods l = l := by
  induction l using spaceAfterPeriods.induct with
  | case1 c cs hup ih =>
    exact absurd ⟨[], cs, rfl⟩ (h c hup)
  | case2 c cs hup ih =>
    rw [spaceAfterPeriods.eq_1, if_neg hup, ih (noDotUp_tail h)]
  | case3 c cs hcond ih =>
    rw [spaceAfterPeriods.eq_2 c cs hcond, ih (noDotUp_tail h)]
  | case4 => rw [spaceAfterPeriods.eq_3]

theorem spaceAfterPeriods_noDotUp (l : Str) : NoDotUp (spaceAfterPeriods l) := by
  induction l using spaceAfterPeriods.induct with
  | case1 c cs hup ih =>
    rw [spaceAfterPeriods.eq_1, if_pos hup]
    have h1 : NoDotUp (c :: spaceAfterPeriods cs) := by
      apply noDotUp_cons ih
      intro u hu hc v hv
      rw [hc] at hup
      exact absurd hup (by decide)
    have h2 : NoDotUp (' ' :: c :: spaceAfterPeriods cs) := by
      apply noDotUp_cons h1
      intro u hu hsp
      exact absurd hsp (by decide)
    apply noDotUp_cons h2
    intro u hu hdot v hv
    simp only [List.cons.injEq] at hv
    rw [← hv.1] at hu
    exact absurd hu (by decide)
  | case2 c cs hup ih =>
    rw [spaceAfterPeriods.eq_1, if_neg hup]
    apply noDotUp_cons ih
    intro u hu hdot v hv
    have hh : (spaceAfterPeriods (c :: cs)).head? = some c := by
      rw [spaceAfterPeriods_head]; rfl
    rw [hv] at hh
    simp at hh
    rw [hh] at hu
    exact hup hu
  | case3 c cs hcond ih =>
    rw [spaceAfterPeriods.eq_2 c cs hcond]
    apply noDotUp_cons ih
    intro u hu hc v hv
    cases cs with
    | nil => rw [spaceAfterPeriods.eq_3] at hv; exact absurd hv (by simp)
    | cons d cs' => exact hcond d cs' hc rfl
  | case4 =>
    intro u hu
    rw [spaceAfterPeriods.eq_3]
    exact noPat_small (by simp)

theorem spaceAfterPeriods_noTri {l : Str} (h : NoTri l) : NoTri (spaceAfterPeriods l) := by
  induction l using spaceAfterPeriods.induct with
  | case1 c cs hup ih =>
    rw [spaceAfterPeriods.eq_1, if_pos hup]
    have ih' := ih (noTri_tail (noTri_tail h))
    have h1 : NoTri (c :: spaceAfterPeriods cs) := by
      apply noTri_cons ih'
      rintro ⟨rfl, -⟩
      exact absurd hup (by decide)
    have h2 : NoTri (' ' :: c :: spaceAfterPeriods cs) := by
      apply noTri_cons h1
      rintro ⟨hsp, -⟩
      exact absurd hsp (by decide)
    apply noTri_cons h2
    rintro ⟨hdot, -⟩
    exact absurd hdot (by decide)
  | case2 c cs hup ih =>
    rw [spaceAfterPeriods.eq_1, if_neg hup]
    apply noTri_cons (ih (noTri_tail h))
    rintro ⟨hdot, -⟩
    exact absurd hdot (by decide)
  | case3 c cs hcond ih =>
    rw [spaceAfterPeriods.eq_2 c cs hcond]
    apply noTri_cons (ih (noTri_tail h))
    rintro ⟨rfl, v, hv⟩
    have h1 : cs.head? = some '\n' := by rw [← spaceAfterPeriods_head, hv]; rfl
    cases cs with
    | nil => simp at h1
    | cons d cs' =>
      simp at h1
      subst h1
      rw [spaceAfterPeriods_cons_ne '\n' cs' (by decide)] at hv
      simp only [List.cons.injEq, true_and] at hv
      have h2 : cs'.head? = some '\n' := by rw [← spaceAfterPeriods_head, hv]; rfl
      cases cs' with
      | nil => simp at h2
      | cons e cs'' =>
        simp at h2
        subst h2
        exact h ⟨[], cs'', rfl⟩
  | case4 =>
    rw [spaceAfterPeriods.eq_3]
    exact noPat_small (by simp)

theorem collapseSpaces_head (a : Char) (t : Str) :
    (collapseSpaces (a :: t)).head? = some a ∨
    ((collapseSpaces (a :: t)).head? = some ' ' ∧ isHw a = true) := by
  cases t with
  | nil => left; rw [collapseSpaces.eq_2]; rfl
  | cons d cs =>
    rw [collapseSpaces.eq_3]
    by_cases hcd : (isHw a && isHw d) = true
    · rw [if_pos hcd]
      exact Or.inr ⟨rfl, (Bool.and_eq_true_iff.mp hcd).1⟩
    · rw [if_neg hcd]
      exact Or.inl rfl

theorem collapseSpaces_fix {l : Str} (h : NoHw2 l) : collapseSpaces l = l := by
  induction l using collapseSpaces.induct with
  | case1 => rw [collapseSpaces.eq_1]
  | case2 c => rw [collapseSpaces.eq_2]
  | case3 c d cs hcd ih =>
    obtain ⟨hc, hd⟩ := Bool.and_eq_true_iff.mp hcd
    exact absurd ⟨[], cs, rfl⟩ (h c d hc hd)
  | case4 c d cs hcd ih =>
    rw [collapseSpaces.eq_3, if_neg hcd, ih (noHw2_tail h)]

theorem collapseSpaces_noHw2 (l : Str) : NoHw2 (collapseSpaces l) := by
  induction l using collapseSpaces.induct with
  | case1 =>
    intro c d hc hd
    rw [collapseSpaces.eq_1]
    exact noPat_small (by simp)
  | case2 c =>
    intro c' d hc hd
    rw [collapseSpaces.eq_2]
    exact noPat_small (by simp)
  | case3 c d cs hcd ih =>
    rw [collapseSpaces.eq_3, if_pos hcd]
    apply noHw2_cons ih
    intro hsp u v huv
    cases hdw : cs.dropWhile isHw with
    | nil =>
      rw [hdw, collapseSpaces.eq_1] at huv
      exact absurd huv (by simp)
    | cons m ms =>
      have hm : isHw m = false := head_dropWhile_not isHw cs m (by rw [hdw]; rfl)
      rw [hdw] at huv
      rcases collapseSpaces_head m ms with h1 | ⟨h1, h2⟩
      · rw [huv] at h1
        simp at h1
        rw [h1]
        exact hm
      · rw [h2] at hm
        exact Bool.noConfusion hm
  | case4 c d cs hcd ih =>
    rw [collapseSpaces.eq_3, if_neg hcd]
    apply noHw2_cons ih
    intro hc u v huv
    rcases collapseSpaces_head d cs with h1 | ⟨h1, h2⟩
    · rw [huv] at h1
      simp at h1
      rw [h1]
      cases hd : isHw d
      · rfl
      · exact absurd (by rw [hc, hd]; rfl) hcd
    · exact absurd (by rw [hc, h2]; rfl) hcd

theorem collapseSpaces_noTri {l : Str} (h : NoTri l) : NoTri (collapseSpaces l) := by
  induction l using collapseSpaces.induct with
  | case1 =>
    rw [collapseSpaces.eq_1]
    exact noPat_small (by simp)
  | case2 c =>
    rw [collapseSpaces.eq_2]
    exact noPat_small (by simp)
  | case3 c d cs hcd ih =>
    rw [collapseSpaces.eq_3, if_pos hcd]
    have hdw : NoTri (cs.dropWhile isHw) :=
      fun hocc => (noTri_tail (noTri_tail h)) (occursIn_of_dropWhile hocc)
    apply noTri_cons (ih hdw)
    rintro ⟨hsp, -⟩
    exact absurd hsp (by decide)
  | case4 c d cs hcd ih =>
    rw [collapseSpaces.eq_3, if_neg hcd]
    apply noTri_cons (ih (noTri_tail h))
    rintro ⟨rfl, v, hv⟩
    rcases collapseSpaces_head d cs with h1 | ⟨h1, h2⟩
    · rw [hv] at h1
      simp at h1
      subst h1
      cases cs with
      | nil =>
        rw [collapseSpaces.eq_2] at hv
        exact absurd hv (by simp)
      | cons e cs' =>
        rw [collapseSpaces.eq_3] at hv
        rw [if_neg (by simp [isHw])] at hv
        simp only [List.cons.injEq, true_and] at hv
        rcases collapseSpaces_head e cs' with g1 | ⟨g1, g2⟩
        · rw [hv] at g1
          simp at g1
          subst g1
          exact h ⟨[], cs', rfl⟩
        · rw [hv] at g1
          simp at g1
    · rw [hv] at h1
      simp at h1

theorem collapseSpaces_noDotUp {l : Str} (h : NoDotUp l) : NoDotUp (collapseSpaces l) := by
  induction l using collapseSpaces.induct with
  | case1 =>
    intro c hc
    rw [collapseSpaces.eq_1]
    exact noPat_small (by simp)
  | case2 c =>
    intro c' hc'
    rw [collapseSpaces.eq_2]
    exact noPat_small (by simp)
  | case3 c d cs hcd ih =>
    rw [collapseSpaces.eq_3, if_pos hcd]
    have hdw : NoDotUp (cs.dropWhile isHw) :=
      fun c' hc' hocc => (noDotUp_tail (noDotUp_tail h)) c' hc' (occursIn_of_dropWhile hocc)
    apply noDotUp_cons (ih hdw)
    intro u hu hsp
    exact absurd hsp (by decide)
  | case4 c d cs hcd ih =>
    rw [collapseSpaces.eq_3, if_neg hcd]
    apply noDotUp_cons (ih (noDotUp_tail h))
    intro u hu hc v hv
    rcases collapseSpaces_head d cs with h1 | ⟨h1, h2⟩
    · rw [hv] at h1
      simp at h1
      subst h1
      rw [hc] at h
      exact h u hu ⟨[], cs, rfl⟩
    · rw [hv] at h1
      simp at h1
      rw [h1] at hu
      exact absurd hu (by decide)

/-- C7: the Page Renderer's whitespace normalization — trim, collapse 3+
newlines to 2, insert a space between a period and a following uppercase
letter, collapse horizontal whitespace runs, trim — is idempotent: applying
it twice is the same as applying it once, for every string. -/
theorem C7_theorem (s : Str) :
    normalizeSectionContent (normalizeSectionContent s) = normalizeSectionContent s := by
  have hidem : jsTrim (normalizeSectionContent s) = normalizeSectionContent s := by
    simp only [normalizeSectionContent]
    exact jsTrim_idem _
  have h1 : NoTri (normalizeSectionContent s) := by
    simp only [normalizeSectionContent]
    exact noTri_of_jsTrim (collapseSpaces_noTri (spaceAfterPeriods_noTri
      (collapseNewlines_noTri (jsTrim s))))
  have h2 : NoDotUp (normalizeSectionContent s) := by
    simp only [normalizeSectionContent]
    exact noDotUp_of_jsTrim (collapseSpaces_noDotUp (spaceAfterPeriods_noDotUp _))
  have h3 : NoHw2 (normalizeSectionContent s) := by
    simp only [normalizeSectionContent]
    exact noHw2_of_jsTrim (collapseSpaces_noHw2 _)
  show jsTrim (collapseSpaces (spaceAfterPeriods (collapseNewlines
    (jsTrim (normalizeSectionContent s))))) = normalizeSectionContent s
  rw [hidem, collapseNewlines_fix h1, spaceAfterPeriods_fix h2, collapseSpaces_fix h3, hidem]

/-! ### C6 -/

theorem mem_dropWhile_of_not {p : Char → Bool} {c : Char} {l : Str}
    (hc : c ∈ l) (hpc : p c = false) : c ∈ l.dropWhile p := by
  have hsplit := List.takeWhile_append_dropWhile p l
  rw [← hsplit] at hc
  rcases List.mem_append.mp hc with h | h
  · have := List.mem_takeWhile_imp h
    rw [this] at hpc
    exact Bool.noConfusion hpc
  · exact h

theorem collapseNewlines_nonWs (l : Str) (h : ∃ c ∈ l, isJsWs c = false) :
    ∃ c ∈ collapseNewlines l, isJsWs c = false := by
  induction l using collapseNewlines.induct with
  | case1 cs ih =>
    obtain ⟨c, hc, hw⟩ := h
    rw [collapseNewlines.eq_1]
    have hcnl : c ≠ '\n' := by
      intro hx
      rw [hx] at hw
      exact Bool.noConfusion hw
    have hcs : c ∈ cs := by
      rcases List.mem_cons.mp hc with hx | hx
      · exact absurd hx hcnl
      · rcases List.mem_cons.mp hx with hy | hy
        · exact absurd hy hcnl
        · exact hy
    have hdw : c ∈ cs.dropWhile (· == '\n') :=
      mem_dropWhile_of_not hcs (by simpa using hcnl)
    obtain ⟨d, hd, hdw2⟩ := ih ⟨c, hdw, hw⟩
    exact ⟨d, List.mem_cons_of_mem _ (List.mem_cons_of_mem _ hd), hdw2⟩
  | case2 c cs hcond ih =>
    rw [collapseNewlines_cons_ne c cs (fun hx => hcond hx.2.choose hx.1 hx.2.choose_spec)]
    obtain ⟨x, hx, hw⟩ := h
    rcases List.mem_cons.mp hx with rfl | hx'
    · exact ⟨x, List.mem_cons_self _ _, hw⟩
    · obtain ⟨d, hd, hdw⟩ := ih ⟨x, hx', hw⟩
      exact ⟨d, List.mem_cons_of_mem _ hd, hdw⟩
  | case3 =>
    obtain ⟨c, hc, -⟩ := h
    simp at hc

theorem spaceAfterPeriods_nonWs (l : Str) (h : ∃ c ∈ l, isJsWs c = false) :
    ∃ c ∈ spaceAfterPeriods l, isJsWs c = false := by
  induction l using spaceAfterPeriods.induct with
  | case1 c cs hup ih =>
    rw [spaceAfterPeriods.eq_1, if_pos hup]
    exact ⟨'.', List.mem_cons_self _ _, by decide⟩
  | case2 c cs hup ih =>
    rw [spaceAfterPeriods.eq_1, if_neg hup]
    exact ⟨'.', List.mem_cons_self _ _, by decide⟩
  | case3 c cs hcond ih =>
    rw [spaceAfterPeriods.eq_2 c cs hcond]
    obtain ⟨x, hx, hw⟩ := h
    rcases List.mem_cons.mp hx with rfl | hx'
    · exact ⟨x, List.mem_cons_self _ _, hw⟩
    · obtain ⟨d, hd, hdw⟩ := ih ⟨x, hx', hw⟩
      exact ⟨d, List.mem_cons_of_mem _ hd, hdw⟩
  | case4 =>
    obtain ⟨c, hc, -⟩ := h
    simp at hc

theorem isJsWs_of_isHw {c : Char} (h : isHw c = true) : isJsWs c = true := by
  simp only [isHw, Bool.or_eq_true] at h
  rcases h with h | h
  · rw [beq_iff_eq] at h
    rw [h]
    rfl
  · rw [beq_iff_eq] at h
    rw [h]
    rfl

theorem collapseSpaces_nonWs (l : Str) (h : ∃ c ∈ l, isJsWs c = false) :
    ∃ c ∈ collapseSpaces l, isJsWs c = false := by
  induction l using collapseSpaces.induct with
  | case1 =>
    obtain ⟨c, hc, -⟩ := h
    simp at hc
  | case2 c =>
    obtain ⟨x, hx, hw⟩ := h
    simp at hx
    subst hx
    rw [collapseSpaces.eq_2]
    exact ⟨x, List.mem_cons_self _ _, hw⟩
  | case3 c d cs hcd ih =>
    rw [collapseSpaces.eq_3, if_pos hcd]
    obtain ⟨hc, hd⟩ := Bool.and_eq_true_iff.mp hcd
    obtain ⟨x, hx, hw⟩ := h
    have hxhw : isHw x = false := by
      cases hxh : isHw x
      · rfl
      · rw [isJsWs_of_isHw hxh] at hw
        exact Bool.noConfusion hw
    have hxcs : x ∈ cs := by
      rcases List.mem_cons.mp hx with rfl | hx'
      · rw [hc] at hxhw; exact Bool.noConfusion hxhw
      · rcases List.mem_cons.mp hx' with rfl | hx''
        · rw [hd] at hxhw; exact Bool.noConfusion hxhw
        · exact hx''
    obtain ⟨e, he, hew⟩ := ih ⟨x, mem_dropWhile_of_not hxcs hxhw, hw⟩
    exact ⟨e, List.mem_cons_of_mem _ he, hew⟩
  | case4 c d cs hcd ih =>
    rw [collapseSpaces.eq_3, if_neg hcd]
    obtain ⟨x, hx, hw⟩ := h
    rcases List.mem_cons.mp hx with rfl | hx'
    · exact ⟨x, List.mem_cons_self _ _, hw⟩
    · obtain ⟨e, he, hew⟩ := ih ⟨x, hx', hw⟩
      exact ⟨e, List.mem_cons_of_mem _ he, hew⟩

theorem normalize_ne_nil {l : Str} (h : jsTrim l ≠ []) : normalizeSectionContent l ≠ [] := by
  have h0 : ∃ c ∈ jsTrim l, isJsWs c = false :=
    exists_not_ws_of_jsTrim_ne_nil (by rw [jsTrim_idem]; exact h)
  obtain ⟨d, hd, hdw⟩ :=
    collapseSpaces_nonWs _ (spaceAfterPeriods_nonWs _ (collapseNewlines_nonWs _ h0))
  exact jsTrim_ne_nil_of_mem hd hdw

theorem getLast?_append_right (a : Str) {b : Str} {x : Char} (hb : b.getLast? = some x) :
    (a ++ b).getLast? = some x := by
  have hbne : b ≠ [] := fun h => by rw [h] at hb; exact Option.noConfusion hb
  rw [List.getLast?_append_of_ne_nil _ hbne]
  exact hb

/-- C6, counterexample: a Section whose content is blank renders as the
title line followed by a blank line, so the output ends with two newlines,
not exactly one. -/
theorem C6_counterexample :
    (createNotionPageFromSection ⟨"T".data, [], 1, "Doc".data, none⟩).content =
      "# T\n\n".data ∧
    ("# T\n\n".data).getLast? = some '\n' ∧
    ("# T\n\n".data).dropLast.getLast? = some '\n' := by
  refine ⟨?_, by decide, by decide⟩
  have hnorm : normalizeSectionContent [] = [] := by
    simp [normalizeSectionContent, jsTrim, collapseNewlines, spaceAfterPeriods, collapseSpaces]
  simp [createNotionPageFromSection, hnorm]

/-- C6, amended: for every Section with level at least 1 and non-blank
content, the rendered output is the `min(level, 6)` header line, a blank
line, the normalized content, and exactly one trailing newline (the
character before it is never a newline).  A Section with blank content
instead yields the header line plus a blank line, ending in two newlines
(see the counterexample). -/
theorem C6_amended (sec : Section) (hlevel : 1 ≤ sec.level)
    (hcon : jsTrim sec.content ≠ []) :
    (createNotionPageFromSection sec).content =
      List.replicate (min sec.level 6) '#' ++ " ".data ++ sec.title ++ "\n\n".data
        ++ normalizeSectionContent sec.content ++ "\n".data ∧
    ((createNotionPageFromSection sec).content).getLast? = some '\n' ∧
    ¬ ((createNotionPageFromSection sec).content).dropLast.getLast? = some '\n' := by
  have hnn := normalize_ne_nil hcon
  obtain ⟨c, hlast⟩ : ∃ c, (normalizeSectionContent sec.content).getLast? = some c := by
    cases hx : (normalizeSectionContent sec.content).getLast? with
    | none => exact absurd (List.getLast?_eq_none_iff.mp hx) hnn
    | some c => exact ⟨c, rfl⟩
  have hcw : isJsWs c = false := jsTrim_last _ c hlast
  have hcnl : c ≠ '\n' := by
    intro hx
    rw [hx] at hcw
    exact Bool.noConfusion hcw
  have hif : (if sec.level = 0 then 1 else sec.level) = sec.level := by
    rw [if_neg (by omega)]
  have hmdlast :
      (List.replicate (min sec.level 6) '#' ++ " ".data ++ sec.title ++ "\n\n".data
        ++ normalizeSectionContent sec.content).getLast? = some c :=
    getLast?_append_right _ hlast
  have hmdne :
      (List.replicate (min sec.level 6) '#' ++ " ".data ++ sec.title ++ "\n\n".data
        ++ normalizeSectionContent sec.content).getLast? ≠ some '\n' := by
    rw [hmdlast]
    intro hx
    simp at hx
    exact hcnl hx
  have hnl : "\n".data = ['\n'] := rfl
  have hshape :
      List.replicate (min sec.level 6) '#' ++ " ".data ++ sec.title ++ "\n\n".data
        ++ normalizeSectionContent sec.content ++ "\n".data =
      (List.replicate (min sec.level 6) '#' ++ " ".data ++ sec.title ++ "\n\n".data
        ++ normalizeSectionContent sec.content) ++ ['\n'] := by
    rw [hnl]
  have hcontent : (createNotionPageFromSection sec).content =
      List.replicate (min sec.level 6) '#' ++ " ".data ++ sec.title ++ "\n\n".data
        ++ normalizeSectionContent sec.content ++ "\n".data := by
    simp only [createNotionPageFromSection, hif]
    rw [if_neg hmdne]
  refine ⟨hcontent, ?_, ?_⟩
  · rw [hcontent, hshape, List.getLast?_concat]
  · rw [hcontent, hshape, List.dropLast_concat, hmdlast]
    intro hx
    simp at hx
    exact hcnl hx

/-- C6, witness: the amended rendering contract applied to a level-7 Section
with content `x` (exercising the `min(level, 6)` cap). -/
theorem C6_witness :
    (createNotionPageFromSection ⟨"T".data, "x".data, 7, "Doc".data, none⟩).content =
      List.replicate (min 7 6) '#' ++ " ".data ++ "T".data ++ "\n\n".data
        ++ normalizeSectionContent "x".data ++ "\n".data ∧
    ((createNotionPageFromSection ⟨"T".data, "x".data, 7, "Doc".data, none⟩).content).getLast?
      = some '\n' ∧
    ¬ ((createNotionPageFromSection ⟨"T".data, "x".data, 7, "Doc".data,
        none⟩).content).dropLast.getLast? = some '\n' :=
  C6_amended ⟨"T".data, "x".data, 7, "Doc".data, none⟩ (by decide) (by decide)
